import Mathlib

/-!
# metrictank: rollup aggregator, cache-delete fan-out and ingestion handler

A shallow embedding of `mdata/aggregator.go`, `api/ccache.go` and `input/input.go`.

Conventions of the embedding:

* a Go `uint32` is a `Nat` below `2^32`; every `uint32` operation of the source is
  written with an explicit reduction modulo `2^32`;
* a Go `int` is an `Int`, every `int` operation reduced to the signed 64-bit range;
* a Go `panic` is the result `none`;
* a `float64` is an element of a linearly ordered ring `V` (the rationals, say), with exact
  arithmetic: no rounding, NaN or infinity. The examples take the integers for `V`;
* calls of collaborators that are not among the sources (`NewAggMetric`, `AggMetric.Add`,
  `peer.Post`, `Cache.DelMetric`, the index, the store and the statistics of the handler)
  are recorded in order, which makes them observable.
-/

namespace Metrictank

/-! ## Machine arithmetic -/

/-- Number of values of a Go `uint32`. -/
def u32Size : Nat := 4294967296

/-- Go `a + b` on `uint32`. -/
def add32 (a b : Nat) : Nat := (a + b) % u32Size

/-- Go `a - b` on `uint32` (wraps below zero). -/
def sub32 (a b : Nat) : Nat := (a + u32Size - b % u32Size) % u32Size

/-! ## `mdata/aggregator.go` -/

/-- Source: `AggBoundary(ts, span) = ts + span - ((ts-1)%span + 1)`, all in `uint32`.
For `span = 0` the Go expression panics (division by zero); callers below guard it. -/
def AggBoundary (ts span : Nat) : Nat :=
  sub32 (add32 ts span) (add32 (sub32 ts 1 % span) 1)

/-- The property the specification gives for a boundary: `b` is the smallest multiple of
`span` that is at least `ts`. -/
def IsBoundaryOf (ts span b : Nat) : Prop :=
  span ∣ b ∧ ts ≤ b ∧ ∀ m, span ∣ m → ts ≤ m → b ≤ m

/-- The value of the expression of `AggBoundary` in unbounded arithmetic, for `ts ≥ 1`:
the multiple of `span` that follows the one strictly below `ts`. -/
def nextMultiple (ts span : Nat) : Nat := ((ts - 1) / span + 1) * span

/-- The largest multiple of `span` that a `uint32` can hold. A timestamp at or below it has
its boundary inside the `uint32` range; for a later timestamp `AggBoundary` wraps around. -/
def lastBoundary (span : Nat) : Nat := (u32Size - 1) / span * span

/-- The aggregation methods of `conf` that `NewAggregator` switches on; `other` stands for
any further value of the integer type `conf.Method`, for which the switch has no case. -/
inductive Method
  | Avg
  | Sum
  | Lst
  | Max
  | Min
  | other (code : Nat)
  deriving DecidableEq, Repr

/-- Modelled from the spec: the type `Aggregation` (the spec's Accumulator) is not among the
sources. Its five fields are passed to the same `AggMetric.Add` as `float64` values, so all
five, the count included, are values of the value type `V`. -/
structure Aggregation (V : Type) where
  Min : V
  Max : V
  Sum : V
  Cnt : V
  Lst : V
  deriving DecidableEq, Repr

/-- Modelled from the spec: `NewAggregation` is not among the sources; a fresh accumulator
is an empty one, the state `Reset` leaves (count zero: no data observed). -/
def NewAggregation {V : Type} [LinearOrderedRing V] : Aggregation V :=
  { Min := 0, Max := 0, Sum := 0, Cnt := 0, Lst := 0 }

/-- Modelled from the spec: `Aggregation.Add` is not among the sources. "Add(value) updates
all fields (min/max via comparison, sum += value, count += 1, last = value)". -/
def Aggregation.Add {V : Type} [LinearOrderedRing V] (a : Aggregation V) (val : V) :
    Aggregation V :=
  { Min := min val a.Min, Max := max val a.Max, Sum := a.Sum + val, Cnt := a.Cnt + 1,
    Lst := val }

/-- Modelled from the spec: `Aggregation.Reset` is not among the sources. "Reset() zeroes
all fields". -/
def Aggregation.Reset {V : Type} [LinearOrderedRing V] (_a : Aggregation V) : Aggregation V :=
  { Min := 0, Max := 0, Sum := 0, Cnt := 0, Lst := 0 }

/-- The key `fmt.Sprintf("%s_<fn>_%d", key, span)` of a rollup series, kept as its three
components (`fn` is one of `"min"`, `"max"`, `"sum"`, `"cnt"`, `"lst"`). -/
structure SeriesKey where
  metric : String
  fn : String
  span : Nat
  deriving DecidableEq, Repr

/-- Modelled from the spec: the type `AggMetric` (the spec's RollupSink) is not among the
sources: "opaque append-only chunked series identified by a derived key"; "its only
operation relevant here is Add(timestamp, value)". The series is the list of the points it
was given, oldest first. -/
structure AggMetric (V : Type) where
  key : SeriesKey
  points : List (Nat × V)
  deriving DecidableEq, Repr

/-- Modelled from the spec: `NewAggMetric` is not among the sources; a new series under the
given key, holding no point. -/
def NewAggMetric {V : Type} (key : SeriesKey) : AggMetric V :=
  { key := key, points := [] }

/-- Modelled from the spec: `AggMetric.Add` is not among the sources; appends the point
`(ts, val)` to the series. -/
def AggMetric.Add {V : Type} (m : AggMetric V) (ts : Nat) (val : V) : AggMetric V :=
  { m with points := m.points ++ [(ts, val)] }

/-- Source: `type Aggregator struct`. A nil `*AggMetric` is `none`. Two history variables
are added to the fields of the source: `created` lists the keys of the calls of
`NewAggMetric` made by `NewAggregator`, in order, and `flushLog` has one entry per call of
`flush`, the boundary and the accumulator at the moment of the call. No code reads them. -/
structure Aggregator (V : Type) where
  key : String
  span : Nat
  currentBoundary : Nat
  agg : Aggregation V
  minMetric : Option (AggMetric V)
  maxMetric : Option (AggMetric V)
  sumMetric : Option (AggMetric V)
  cntMetric : Option (AggMetric V)
  lstMetric : Option (AggMetric V)
  created : List SeriesKey
  flushLog : List (Nat × Aggregation V)
  deriving DecidableEq, Repr

/-- One iteration of the loop of `NewAggregator` over `agg.AggregationMethod`: the `switch`
with its `== nil` guards. -/
def newAggregatorStep {V : Type} (key : String) (span : Nat) (a : Aggregator V) (m : Method) :
    Aggregator V :=
  match m with
  | .Avg =>
    let a1 :=
      if a.sumMetric.isNone then
        { a with sumMetric := some (NewAggMetric ⟨key, "sum", span⟩),
                 created := a.created ++ [⟨key, "sum", span⟩] }
      else a
    if a1.cntMetric.isNone then
      { a1 with cntMetric := some (NewAggMetric ⟨key, "cnt", span⟩),
                created := a1.created ++ [⟨key, "cnt", span⟩] }
    else a1
  | .Sum =>
    if a.sumMetric.isNone then
      { a with sumMetric := some (NewAggMetric ⟨key, "sum", span⟩),
               created := a.created ++ [⟨key, "sum", span⟩] }
    else a
  | .Lst =>
    if a.lstMetric.isNone then
      { a with lstMetric := some (NewAggMetric ⟨key, "lst", span⟩),
               created := a.created ++ [⟨key, "lst", span⟩] }
    else a
  | .Max =>
    if a.maxMetric.isNone then
      { a with maxMetric := some (NewAggMetric ⟨key, "max", span⟩),
               created := a.created ++ [⟨key, "max", span⟩] }
    else a
  | .Min =>
    if a.minMetric.isNone then
      { a with minMetric := some (NewAggMetric ⟨key, "min", span⟩),
               created := a.created ++ [⟨key, "min", span⟩] }
    else a
  | .other _ => a

/-- Source: `NewAggregator`. `secondsPerPoint` is `ret.SecondsPerPoint` (an `int`, converted
to `uint32`), `methods` is `agg.AggregationMethod`; the result is `none` where the source
panics (no aggregation method). The store, the cache pusher and `dropFirstChunk` are only
handed on to `NewAggMetric`. -/
def NewAggregator {V : Type} [LinearOrderedRing V] (key : String) (secondsPerPoint : Int)
    (methods : List Method) : Option (Aggregator V) :=
  if methods.length = 0 then none
  else
    let span := (secondsPerPoint % (u32Size : Int)).toNat
    some (methods.foldl (newAggregatorStep key span)
      { key := key, span := span, currentBoundary := 0, agg := NewAggregation,
        minMetric := none, maxMetric := none, sumMetric := none, cntMetric := none,
        lstMetric := none, created := [], flushLog := [] })

/-- Source: `Aggregator.flush`: each sink that exists is given the point
`(currentBoundary, <its field of the accumulator>)`, then the accumulator is reset. -/
def Aggregator.flush {V : Type} [LinearOrderedRing V] (a : Aggregator V) : Aggregator V :=
  { a with
    minMetric := a.minMetric.map (fun m => m.Add a.currentBoundary a.agg.Min)
    maxMetric := a.maxMetric.map (fun m => m.Add a.currentBoundary a.agg.Max)
    sumMetric := a.sumMetric.map (fun m => m.Add a.currentBoundary a.agg.Sum)
    cntMetric := a.cntMetric.map (fun m => m.Add a.currentBoundary a.agg.Cnt)
    lstMetric := a.lstMetric.map (fun m => m.Add a.currentBoundary a.agg.Lst)
    agg := a.agg.Reset
    flushLog := a.flushLog ++ [(a.currentBoundary, a.agg)] }

/-- Source: `Aggregator.Add`. The result is `none` where the source panics: on
`boundary < agg.currentBoundary`, and on a zero span (division by zero in `AggBoundary`). -/
def Aggregator.Add {V : Type} [LinearOrderedRing V] (a : Aggregator V) (ts : Nat) (val : V) :
    Option (Aggregator V) :=
  if a.span = 0 then none
  else
    let boundary := AggBoundary ts a.span
    if boundary = a.currentBoundary then
      let a1 := { a with agg := a.agg.Add val }
      if ts = boundary then some a1.flush else some a1
    else if boundary > a.currentBoundary then
      let a1 := if a.agg.Cnt ≠ 0 then a.flush else a
      some { a1 with currentBoundary := boundary, agg := a1.agg.Add val }
    else none

/-- Feeding a stream of points `(ts, val)` to an aggregator, one `Add` per point, in order;
`none` as soon as one `Add` panics. -/
def Aggregator.feed {V : Type} [LinearOrderedRing V] :
    Aggregator V → List (Nat × V) → Option (Aggregator V)
  | a, [] => some a
  | a, (ts, val) :: rest => (a.Add ts val).bind (fun a1 => a1.feed rest)

/-- The points a sink holds (`none` for a sink that was not created). -/
def sinkPoints {V : Type} (m : Option (AggMetric V)) : Option (List (Nat × V)) :=
  m.map (fun x => x.points)

/-- The accumulator after folding the values of the points `l` into an empty one. -/
def accOf {V : Type} [LinearOrderedRing V] (l : List (Nat × V)) : Aggregation V :=
  l.foldl (fun acc p => acc.Add p.2) NewAggregation

/-- The boundary of the first point of a group of points (`0` for no point). -/
def groupBoundary {V : Type} (span : Nat) : List (Nat × V) → Nat
  | [] => 0
  | p :: _ => AggBoundary p.1 span

/-! ## Predicates on the states of an aggregator -/

/-- A sink that holds no point yet, or that does not exist. -/
def sinkEmpty {V : Type} (m : Option (AggMetric V)) : Prop :=
  ∀ x, m = some x → x.points = []

/-- The state of an aggregator that was given no point: current boundary zero, empty
accumulator, no flush yet, no point in any sink. -/
def IsFresh {V : Type} [LinearOrderedRing V] (a : Aggregator V) : Prop :=
  a.currentBoundary = 0 ∧ a.agg = NewAggregation ∧ a.flushLog = [] ∧
  sinkEmpty a.minMetric ∧ sinkEmpty a.maxMetric ∧ sinkEmpty a.sumMetric ∧
  sinkEmpty a.cntMetric ∧ sinkEmpty a.lstMetric

/-- The points of the sink `m`, if it exists, are the flushes of the log `log`, each with
the field `f` of the flushed accumulator. -/
def sinkFollows {V : Type} (m : Option (AggMetric V)) (log : List (Nat × Aggregation V))
    (f : Aggregation V → V) : Prop :=
  ∀ x, m = some x → x.points = log.map (fun e => (e.1, f e.2))

/-- Every sink that exists holds exactly one point per flush, in the order of the flushes:
the boundary of the flush with the sink's field of the accumulator. -/
def SinksFollowLog {V : Type} (a : Aggregator V) : Prop :=
  sinkFollows a.minMetric a.flushLog (fun g => g.Min) ∧
  sinkFollows a.maxMetric a.flushLog (fun g => g.Max) ∧
  sinkFollows a.sumMetric a.flushLog (fun g => g.Sum) ∧
  sinkFollows a.cntMetric a.flushLog (fun g => g.Cnt) ∧
  sinkFollows a.lstMetric a.flushLog (fun g => g.Lst)

/-- The sinks of `a2` are those of `a`: the same ones exist, under the same keys. -/
def SameSinks {V : Type} (a a2 : Aggregator V) : Prop :=
  a2.minMetric.map (fun x => x.key) = a.minMetric.map (fun x => x.key) ∧
  a2.maxMetric.map (fun x => x.key) = a.maxMetric.map (fun x => x.key) ∧
  a2.sumMetric.map (fun x => x.key) = a.sumMetric.map (fun x => x.key) ∧
  a2.cntMetric.map (fun x => x.key) = a.cntMetric.map (fun x => x.key) ∧
  a2.lstMetric.map (fun x => x.key) = a.lstMetric.map (fun x => x.key)


/-- The sink `NewAggregator` holds for the function `fn` once `wanted` says whether a requested
method needs it: a new, empty series under the derived key, or nil. -/
def expectedSink {V : Type} (key : String) (span : Nat) (fn : String) (wanted : Bool) :
    Option (AggMetric V) :=
  if wanted then some (NewAggMetric ⟨key, fn, span⟩) else none

/-- The keys under which `NewAggregator` has to create series for the methods `ms`, given as
the list of the five candidate keys filtered by need. -/
def expectedKeys (key : String) (span : Nat) (ms : List Method) : List SeriesKey :=
  (if Method.Avg ∈ ms ∨ Method.Sum ∈ ms then [(⟨key, "sum", span⟩ : SeriesKey)] else []) ++
  (if Method.Avg ∈ ms then [(⟨key, "cnt", span⟩ : SeriesKey)] else []) ++
  (if Method.Lst ∈ ms then [(⟨key, "lst", span⟩ : SeriesKey)] else []) ++
  (if Method.Max ∈ ms then [(⟨key, "max", span⟩ : SeriesKey)] else []) ++
  (if Method.Min ∈ ms then [(⟨key, "min", span⟩ : SeriesKey)] else [])

/-- The number of points a sink holds (`none` for a sink that was not created). -/
def sinkCount {V : Type} (m : Option (AggMetric V)) : Option Nat :=
  m.map (fun x => x.points.length)


/-! ## Concrete states used by the examples -/

/-- The aggregator `NewAggregator` returns for the key `"m"`, ten seconds per point and the
single method `Avg` (integer values): a sum sink and a count sink. -/
def demoFresh : Aggregator ℤ :=
  { key := "m", span := 10, currentBoundary := 0, agg := NewAggregation,
    minMetric := none, maxMetric := none,
    sumMetric := some { key := ⟨"m", "sum", 10⟩, points := [] },
    cntMetric := some { key := ⟨"m", "cnt", 10⟩, points := [] },
    lstMetric := none, created := [⟨"m", "sum", 10⟩, ⟨"m", "cnt", 10⟩], flushLog := [] }

/-- The stream of the specification's scenario: `(5,2)`, `(9,4)`, `(10,6)`, then `(15,1)`. -/
def demoStream : List (Nat × ℤ) := [(5, 2), (9, 4), (10, 6), (15, 1)]

/-- The state of `demoFresh` after `demoStream`: one flush, at boundary 10, of sum 12 and
count 3; the point `(15,1)` is pending in the accumulator of the window that ends at 20. -/
def demoFinal : Aggregator ℤ :=
  { key := "m", span := 10, currentBoundary := 20,
    agg := { Min := 0, Max := 1, Sum := 1, Cnt := 1, Lst := 1 },
    minMetric := none, maxMetric := none,
    sumMetric := some { key := ⟨"m", "sum", 10⟩, points := [(10, 12)] },
    cntMetric := some { key := ⟨"m", "cnt", 10⟩, points := [(10, 3)] },
    lstMetric := none, created := [⟨"m", "sum", 10⟩, ⟨"m", "cnt", 10⟩],
    flushLog := [(10, { Min := 0, Max := 6, Sum := 12, Cnt := 3, Lst := 6 })] }


/-- The points `done` fed so far, cut into windows: `done` is a sequence of groups of
consecutive points, one group per flush, in the order of the flushes, followed by the points
`rest` that are folded into the accumulator and not flushed yet. Each flush was made at the
common boundary of the points of its group, with the accumulator of exactly these points. -/
def Windows {V : Type} [LinearOrderedRing V] (a : Aggregator V) (done : List (Nat × V))
    (groups : List (List (Nat × V))) (rest : List (Nat × V)) : Prop :=
  done = groups.flatten ++ rest ∧
  a.flushLog = groups.map (fun g => (groupBoundary a.span g, accOf g)) ∧
  a.agg = accOf rest ∧
  (∀ p ∈ rest, AggBoundary p.1 a.span = a.currentBoundary) ∧
  (∀ g ∈ groups, g ≠ [] ∧ ∀ p ∈ g, AggBoundary p.1 a.span = groupBoundary a.span g)


/-- The timestamps of the points a sink holds, oldest first (none for a sink that was not
created). -/
def sinkTimestamps {V : Type} (m : Option (AggMetric V)) : List Nat :=
  match m with
  | none => []
  | some x => x.points.map Prod.fst


/-! ## `api/models/ccache.go` and `api/ccache.go` -/

/-- Go `int` arithmetic (64 bits, two's complement): the representative of `x` in the
range of an `int`. -/
def wrapInt (x : Int) : Int :=
  (x + 9223372036854775808) % 18446744073709551616 - 9223372036854775808

/-- Source: `models.CCacheDelete`. -/
structure CCacheDelete where
  Patterns : List String
  OrgId : Int
  Propagate : Bool
  deriving DecidableEq, Repr

/-- Source: `models.CCacheDeleteResp`. The map `Peers` is the list of its entries, at most
one per key; a nil map and an empty map are both the empty list. -/
structure CCacheDeleteResp where
  Errors : Int
  DeletedSeries : Int
  DeletedArchives : Int
  Peers : List (String × CCacheDeleteResp)

/-- The zero value of `models.CCacheDeleteResp`. -/
def CCacheDeleteResp.zero : CCacheDeleteResp :=
  { Errors := 0, DeletedSeries := 0, DeletedArchives := 0, Peers := [] }

/-- Go `m[k] = v` on a map: the entry of `k` is replaced, or added. -/
def mapSet {α : Type} (m : List (String × α)) (k : String) (v : α) : List (String × α) :=
  (k, v) :: m.filter (fun e => e.1 ≠ k)

/-- Go `m[k]` on a map: the value under `k`, if there is one. -/
def mapGet {α : Type} (m : List (String × α)) (k : String) : Option α :=
  (m.find? (fun e => e.1 = k)).map (fun e => e.2)

/-- The part of `cluster.NodeIf` that `api/ccache.go` uses. `Post` is the result of
`peer.Post(ctx, "ccacheDeleteRemote", "/ccache/delete", req)`: the body, or `none` for a
non-nil error. -/
structure NodeIf where
  IsLocal : Bool
  GetName : String
  Post : CCacheDelete → Option String

/-- A node of the index as `ccacheDelete` reads it: the ids of its series definitions
(`def.Id` for `def` in `node.Defs`). -/
structure Node where
  Defs : List String
  deriving DecidableEq, Repr

/-- The result of `Cache.DelMetric`: the numbers of series and of archives deleted. -/
structure CCDelMetricResult where
  Series : Int
  Archives : Int
  deriving DecidableEq, Repr

/-- The collaborators of `ccacheDelete`, none of which is among the sources; `C` is the
type of the states of the local chunk cache.
* `Find orgId pattern` is `s.MetricIndex.Find(orgId, pattern, 0)`;
* `DelMetric cache id` is `s.Cache.DelMetric(id)`: the cache afterwards and the result;
* `MemberList` is `cluster.Manager.MemberList()`;
* `Unmarshal buf` is `json.Unmarshal(buf, &res)` on a zero `res`: the value of `res`
  afterwards, and whether the error returned is non-nil;
* `sched` is the order in which the goroutines of `ccacheDeletePropagate` take the mutex
  (each holds it for its whole body): a rearrangement of the list of the spawned peers. -/
structure Env (C : Type) where
  Find : Int → String → Except String (List Node)
  DelMetric : C → String → C × CCDelMetricResult
  MemberList : List NodeIf
  Unmarshal : String → CCacheDeleteResp × Bool
  sched : List NodeIf → List NodeIf

/-- One call of `peer.Post`: the peer and the request it is sent. -/
structure PostCall where
  peer : NodeIf
  req : CCacheDelete

/-- The call `peer.Post(ctx, "ccacheDeleteRemote", "/ccache/delete", req)`: what it returns,
together with the record of the call, which holds the request it was given. -/
def callPost (peer : NodeIf) (req : CCacheDelete) : Option String × PostCall :=
  (peer.Post req, { peer := peer, req := req })

/-- Source: `Server.ccacheDeleteRemote`. Returns the response of the source and the calls
of `Post` the function made, each recorded where it is made. -/
def ccacheDeleteRemote {C : Type} (env : Env C) (req : CCacheDelete) (peer : NodeIf) :
    CCacheDeleteResp × List PostCall :=
  let res := CCacheDeleteResp.zero
  let call := callPost peer req
  match call.1 with
  | none => ({ res with Errors := wrapInt (res.Errors + 1) }, [call.2])
  | some buf =>
    match env.Unmarshal buf with
    | (res2, true) => ({ res2 with Errors := wrapInt (res2.Errors + 1) }, [call.2])
    | (res2, false) => (res2, [call.2])

/-- The peers for which `ccacheDeletePropagate` spawns a goroutine: the members that are
not local. -/
def spawnedPeers {C : Type} (env : Env C) : List NodeIf :=
  env.MemberList.filter (fun peer => !peer.IsLocal)

/-- Source: `Server.ccacheDeletePropagate`. Returns the request as the function leaves it
(it is passed by pointer), the map of the peer results, and the calls of `Post` made by the
calls of `ccacheDeleteRemote`, in the order in which they were made. -/
def ccacheDeletePropagate {C : Type} (env : Env C) (req : CCacheDelete) :
    CCacheDelete × List (String × CCacheDeleteResp) × List PostCall :=
  let req1 := { req with Propagate := false }
  let run := (env.sched (spawnedPeers env)).foldl
    (fun (acc : List (String × CCacheDeleteResp) × List PostCall) peer =>
      let remote := ccacheDeleteRemote env req1 peer
      (mapSet acc.1 peer.GetName remote.1, acc.2 ++ remote.2))
    ([], [])
  (req1, run.1, run.2)

/-- The state of the local part of `ccacheDelete`: the cache, the response under
construction, and the ids given to `DelMetric` so far. -/
structure LocalState (C : Type) where
  cache : C
  res : CCacheDeleteResp
  dels : List String

/-- The two inner loops of `ccacheDelete`, over the series definitions of the nodes found
for one pattern: one `DelMetric` per definition, its counts added to the response. -/
def delDefs {C : Type} (env : Env C) (st : LocalState C) (ids : List String) : LocalState C :=
  ids.foldl
    (fun st id =>
      let r := env.DelMetric st.cache id
      { cache := r.1,
        res := { st.res with
          DeletedSeries := wrapInt (st.res.DeletedSeries + r.2.Series),
          DeletedArchives := wrapInt (st.res.DeletedArchives + r.2.Archives) },
        dels := st.dels ++ [id] })
    st

/-- The loop of `ccacheDelete` over the patterns; the second component is the message of
the first error of `Find`, at which the loop is left. -/
def deletePatterns {C : Type} (env : Env C) (orgId : Int) :
    LocalState C → List String → LocalState C × Option String
  | st, [] => (st, none)
  | st, pattern :: rest =>
    match env.Find orgId pattern with
    | .error err => (st, some err)
    | .ok nodes => deletePatterns env orgId (delDefs env st (nodes.flatMap (fun n => n.Defs))) rest

/-- What `response.Write` is given: `response.NewJson(200, res, "")` or
`response.NewError(http.StatusBadRequest, msg)`. -/
inductive Response
  | json (code : Nat) (res : CCacheDeleteResp)
  | error (code : Nat) (msg : String)

/-- All that one call of `ccacheDelete` does: the response it writes, the calls of `Post`
and the ids of the calls of `DelMetric`, each in order, and the cache it leaves. -/
structure Outcome (C : Type) where
  resp : Response
  posts : List PostCall
  dels : List String
  cache : C

/-- Source: `Server.ccacheDelete`, run on the cache state `cache`. -/
def ccacheDelete {C : Type} (env : Env C) (cache : C) (req : CCacheDelete) : Outcome C :=
  let res := CCacheDeleteResp.zero
  let prop :=
    if req.Propagate then
      let r := ccacheDeletePropagate env req
      (r.1, { res with Peers := r.2.1 }, r.2.2)
    else (req, res, [])
  let loc := deletePatterns env prop.1.OrgId { cache := cache, res := prop.2.1, dels := [] }
    prop.1.Patterns
  match loc.2 with
  | some err => { resp := .error 400 err, posts := prop.2.2, dels := loc.1.dels,
                  cache := loc.1.cache }
  | none => { resp := .json 200 loc.1.res, posts := prop.2.2, dels := loc.1.dels,
              cache := loc.1.cache }

/-- The status code of a response. -/
def Response.code : Response → Nat
  | .json c _ => c
  | .error c _ => c

/-- The local deletion counts a response carries, if it is a JSON response. -/
def Response.counts : Response → Option (Int × Int)
  | .json _ res => some (res.DeletedSeries, res.DeletedArchives)
  | .error _ _ => none

/-- The per-peer results a response carries (none for an error response). -/
def Response.peers : Response → List (String × CCacheDeleteResp)
  | .json _ res => res.Peers
  | .error _ _ => []

/-- The results of the calls of `DelMetric` for the ids `ids`, made in order from the cache
state `cache`. -/
def delResults {C : Type} (delMetric : C → String → C × CCDelMetricResult) :
    C → List String → List CCDelMetricResult
  | _, [] => []
  | cache, id :: rest => (delMetric cache id).2 :: delResults delMetric (delMetric cache id).1 rest

/-- The cache state after the calls of `DelMetric` for the ids `ids`, made in order from
the cache state `cache`. -/
def delCache {C : Type} (delMetric : C → String → C × CCDelMetricResult) :
    C → List String → C
  | cache, [] => cache
  | cache, id :: rest => delCache delMetric (delMetric cache id).1 rest

/-- The ids of the series definitions of every node the index finds for the patterns, in
the order of the patterns, of the nodes and of the definitions (the patterns from a failing
`Find` on are not looked up). -/
def matchedIds (find : Int → String → Except String (List Node)) (orgId : Int) :
    List String → List String
  | [] => []
  | pattern :: rest =>
    match find orgId pattern with
    | .error _ => []
    | .ok nodes => nodes.flatMap (fun n => n.Defs) ++ matchedIds find orgId rest

/-- The message of the first failing `Find` among the patterns, if one fails. -/
def findError (find : Int → String → Except String (List Node)) (orgId : Int) :
    List String → Option String
  | [] => none
  | pattern :: rest =>
    match find orgId pattern with
    | .error err => some err
    | .ok _ => findError find orgId rest

/-- The sum of the `Series` counts of a list of results of `DelMetric`. -/
def sumSeries (rs : List CCDelMetricResult) : Int := (rs.map (fun r => r.Series)).sum

/-- The sum of the `Archives` counts of a list of results of `DelMetric`. -/
def sumArchives (rs : List CCDelMetricResult) : Int := (rs.map (fun r => r.Archives)).sum

/-! ## A cluster used by the examples -/

/-- A cache that holds the ids it is given; deleting an id that is present counts one
series and three archives, deleting an absent id counts nothing. -/
def demoDelMetric (cache : List String) (id : String) : List String × CCDelMetricResult :=
  if id ∈ cache then (cache.erase id, { Series := 1, Archives := 3 })
  else (cache, { Series := 0, Archives := 0 })

/-- An index with two series under the pattern `"a.*"`, none under any other pattern, and
an error for the pattern `"["`. -/
def demoFind (_orgId : Int) (pattern : String) : Except String (List Node) :=
  if pattern = "a.*" then .ok [{ Defs := ["a.b"] }, { Defs := ["a.c"] }]
  else if pattern = "[" then .error "bad pattern"
  else .ok []

/-- A decoder of three bodies: `"r1"` decodes to a response with two series and six
archives deleted, `"r3"` to the zero response; `"partial"` stands for a body such as
`{"errors":3,"deletedSeries":"x"}`, on which `json.Unmarshal` stores `errors = 3`, skips the
field of the wrong type and returns an `UnmarshalTypeError`; any other body is a syntax
error, which leaves the response untouched. -/
def demoUnmarshal (buf : String) : CCacheDeleteResp × Bool :=
  if buf = "r1" then
    ({ Errors := 0, DeletedSeries := 2, DeletedArchives := 6, Peers := [] }, false)
  else if buf = "r3" then (CCacheDeleteResp.zero, false)
  else if buf = "partial" then
    ({ Errors := 3, DeletedSeries := 0, DeletedArchives := 0, Peers := [] }, true)
  else (CCacheDeleteResp.zero, true)

/-- A cluster of the local node and three peers; the call of `peer2` fails. The goroutines
run in the reverse of the member order. -/
def demoEnv : Env (List String) :=
  { Find := demoFind
    DelMetric := demoDelMetric
    MemberList :=
      [{ IsLocal := true, GetName := "self", Post := fun _ => some "r1" },
       { IsLocal := false, GetName := "peer1", Post := fun _ => some "r1" },
       { IsLocal := false, GetName := "peer2", Post := fun _ => none },
       { IsLocal := false, GetName := "peer3", Post := fun _ => some "r3" }]
    Unmarshal := demoUnmarshal
    sched := List.reverse }

/-- The cluster `demoEnv` with a `peer2` whose call returns the body `"partial"`. -/
def demoEnvPartial : Env (List String) :=
  { demoEnv with
    MemberList :=
      [{ IsLocal := true, GetName := "self", Post := fun _ => some "r1" },
       { IsLocal := false, GetName := "peer1", Post := fun _ => some "r1" },
       { IsLocal := false, GetName := "peer2", Post := fun _ => some "partial" },
       { IsLocal := false, GetName := "peer3", Post := fun _ => some "r3" }] }

/-- A propagated delete of the pattern `"a.*"` for org 1. -/
def demoReq : CCacheDelete := { Patterns := ["a.*"], OrgId := 1, Propagate := true }

/-- The nodes `demoFind` finds per pattern. -/
def demoNodesOf (pattern : String) : List Node :=
  if pattern = "a.*" then [{ Defs := ["a.b"] }, { Defs := ["a.c"] }] else []


/-- A propagated delete of the pattern `"a.*"` followed by the pattern `"["`, for which the
index returns an error. -/
def demoReqBad : CCacheDelete := { Patterns := ["a.*", "["], OrgId := 1, Propagate := true }

/-! ## `input/input.go` -/

/-- Go `uint32(x)` for an `int64` `x`: the low 32 bits. -/
def toUint32 (x : Int) : Nat := (x % 4294967296).toNat

/-- The fields of `schema.MetricData` that `Process` reads. The type is declared outside
the sources; its other fields are read by `Validate` only, which is a parameter. `Time` is
an `int64`, `Value` a `float64`. -/
structure MetricData (V : Type) where
  Id : String
  Name : String
  Time : Int
  Value : V
  deriving DecidableEq, Repr

/-- The fields of `idx.Archive` that `Process` reads (two `uint16`). -/
structure Archive where
  SchemaId : Nat
  AggId : Nat
  deriving DecidableEq, Repr

/-- The statistics of `DefaultHandler`, by the name of their field. -/
inductive Stat
  | metricsReceived
  | MetricInvalid
  | MsgsAge
  | pressureIdx
  | pressureTank
  | lag
  deriving DecidableEq, Repr

/-- What `Process` does to its collaborators, none of which is among the sources: a
statistic is incremented (`Inc`), added to (`Add`) or given a value (`Value`), the index is
asked `AddOrUpdate(metric, partition)`, the store `GetOrCreate(id, name, schemaId, aggId)`,
and the series it returns is given `Add(ts, val)`. -/
inductive InputEvent (V : Type)
  | statInc (s : Stat)
  | statAdd (s : Stat) (val : Int)
  | statValue (s : Stat) (val : Int)
  | AddOrUpdate (metric : MetricData V) (partition : Int)
  | GetOrCreate (id name : String) (schemaId aggId : Nat)
  | Add (ts : Nat) (val : V)
  deriving DecidableEq, Repr

/-- The collaborators of `Process` and the clock readings of one call:
* `Validate metric` is `metric.Validate()`: the error, or `none` for nil;
* `AddOrUpdate metric partition` is the archive `in.metricIndex.AddOrUpdate` returns;
* `idxNanos` and `tankNanos` are the two values of `time.Since(pre).Nanoseconds()`;
* `nowNano` is `time.Now().UnixNano()` at the measurement of the lag. -/
structure InputEnv (V : Type) where
  Validate : MetricData V → Option String
  AddOrUpdate : MetricData V → Int → Archive
  idxNanos : Int
  tankNanos : Int
  nowNano : Int

/-- Source: `DefaultHandler.Process`; a nil `metric` is `none`. The result is the list of
the calls the function makes, in order (the two log lines are left out). -/
def Process {V : Type} (env : InputEnv V) (metric : Option (MetricData V)) (partition : Int) :
    List (InputEvent V) :=
  match metric with
  | none => []
  | some m =>
    .statInc .metricsReceived ::
      (match env.Validate m with
       | some _ => [.statInc .MetricInvalid]
       | none =>
         if m.Time = 0 then [.statInc .MetricInvalid]
         else
           let archive := env.AddOrUpdate m partition
           [.AddOrUpdate m partition,
            .statAdd .pressureIdx env.idxNanos,
            .GetOrCreate m.Id m.Name archive.SchemaId archive.AggId,
            .Add (toUint32 m.Time) m.Value,
            .statValue .lag (wrapInt (env.nowNano - wrapInt (m.Time * 1000000000))),
            .statAdd .pressureTank env.tankNanos])

/-- The calls of the index's `AddOrUpdate` and of the raw series' `Add` in a list of
calls, in order. -/
def storeCalls {V : Type} (tr : List (InputEvent V)) : List (InputEvent V) :=
  tr.filter (fun e =>
    match e with
    | .AddOrUpdate _ _ => true
    | .Add _ _ => true
    | _ => false)

/-- The timestamps given to the raw series' `Add` in a list of calls, in order. -/
def storedTimestamps {V : Type} (tr : List (InputEvent V)) : List Nat :=
  tr.filterMap (fun e =>
    match e with
    | .Add ts _ => some ts
    | _ => none)

/-- The number of increments of the statistic `s` in a list of calls. -/
def statIncs {V : Type} (s : Stat) (tr : List (InputEvent V)) : Nat :=
  (tr.filter (fun e =>
    match e with
    | .statInc s2 => decide (s2 = s)
    | _ => false)).length

/-- The calls that touch a statistic in a list of calls, in order. -/
def statCalls {V : Type} (tr : List (InputEvent V)) : List (InputEvent V) :=
  tr.filter (fun e =>
    match e with
    | .statInc _ => true
    | .statAdd _ _ => true
    | .statValue _ _ => true
    | _ => false)

/-- A handler whose `Validate` accepts every point with a non-empty name, whose index
answers schema 1 and aggregation 2, and whose clock readings are fixed. -/
def demoInput : InputEnv ℤ :=
  { Validate := fun m => if m.Name = "" then some "name cannot be empty" else none
    AddOrUpdate := fun _ _ => { SchemaId := 1, AggId := 2 }
    idxNanos := 100
    tankNanos := 200
    nowNano := 1500000000000000000 }

/-- A valid point of timestamp 1500000000. -/
def demoPoint : MetricData ℤ := { Id := "1.abc", Name := "a.b", Time := 1500000000, Value := 7 }

/-- A valid point whose `Time` is `2^32`: not zero as an `int64`, zero as a `uint32`. -/
def demoPointWrapped : MetricData ℤ :=
  { Id := "1.abc", Name := "a.b", Time := 4294967296, Value := 7 }


/-! ## Boundary arithmetic -/

theorem nextMultiple_eq (ts span : Nat) (hs : 0 < span) (ht : 0 < ts) :
    nextMultiple ts span = ts + span - ((ts - 1) % span + 1) := by
  unfold nextMultiple
  have h1 := Nat.div_add_mod (ts - 1) span
  have h2 := Nat.mod_lt (ts - 1) hs
  rw [Nat.add_mul, Nat.mul_comm]
  omega

theorem nextMultiple_isBoundary (ts span : Nat) (hs : 0 < span) (ht : 0 < ts) :
    IsBoundaryOf ts span (nextMultiple ts span) := by
  refine ⟨Dvd.intro_left _ rfl, ?_, ?_⟩
  · rw [nextMultiple_eq ts span hs ht]
    have h2 := Nat.mod_lt (ts - 1) hs
    omega
  · rintro m ⟨k, rfl⟩ hk
    unfold nextMultiple
    rw [Nat.mul_comm span k]
    apply Nat.mul_le_mul_right
    by_contra hlt
    have hle : k ≤ (ts - 1) / span := by omega
    have h3 : k * span ≤ (ts - 1) / span * span := Nat.mul_le_mul_right _ hle
    have h4 := Nat.div_mul_le_self (ts - 1) span
    rw [Nat.mul_comm span k] at hk
    omega

theorem isBoundaryOf_unique (ts span b c : Nat) (hb : IsBoundaryOf ts span b)
    (hc : IsBoundaryOf ts span c) : b = c :=
  Nat.le_antisymm (hb.2.2 c hc.1 hc.2.1) (hc.2.2 b hb.1 hb.2.1)

theorem nextMultiple_lt (ts span : Nat) (hs : 0 < span) (ht : 0 < ts) :
    nextMultiple ts span < ts + span := by
  rw [nextMultiple_eq ts span hs ht]
  omega

theorem AggBoundary_eq_mod (ts span : Nat) (hs : 0 < span) (hs2 : span < u32Size)
    (ht : 0 < ts) (ht2 : ts < u32Size) :
    AggBoundary ts span = nextMultiple ts span % u32Size := by
  rw [nextMultiple_eq ts span hs ht]
  unfold AggBoundary sub32 add32
  have e1 : (ts + u32Size - 1 % u32Size) % u32Size = ts - 1 := by
    unfold u32Size at *; omega
  rw [e1]
  have h2 := Nat.mod_lt (ts - 1) hs
  generalize (ts - 1) % span = r at *
  unfold u32Size at *
  omega

theorem lastBoundary_le (span : Nat) : lastBoundary span ≤ u32Size - 1 :=
  Nat.div_mul_le_self _ _

theorem lastBoundary_dvd (span : Nat) : span ∣ lastBoundary span :=
  Dvd.intro_left _ rfl

theorem lastBoundary_add_gt (span : Nat) (hs : 0 < span) :
    u32Size - 1 < lastBoundary span + span := by
  unfold lastBoundary
  have h1 := Nat.div_add_mod (u32Size - 1) span
  have h2 := Nat.mod_lt (u32Size - 1) hs
  rw [Nat.mul_comm] at h1
  omega

/-- A timestamp is at or below the last boundary exactly when some multiple of the span at
or above it fits in a `uint32`. -/
theorem le_lastBoundary_iff (ts span : Nat) (hs : 0 < span) :
    ts ≤ lastBoundary span ↔ ∃ m, span ∣ m ∧ ts ≤ m ∧ m < u32Size := by
  constructor
  · intro h
    refine ⟨lastBoundary span, lastBoundary_dvd span, h, ?_⟩
    have := lastBoundary_le span
    unfold u32Size at *
    omega
  · rintro ⟨m, ⟨k, rfl⟩, h1, h2⟩
    have hk : k ≤ (u32Size - 1) / span := by
      rw [Nat.le_div_iff_mul_le hs, Nat.mul_comm]
      omega
    have : k * span ≤ lastBoundary span := Nat.mul_le_mul_right _ hk
    rw [Nat.mul_comm] at h1
    omega

theorem nextMultiple_le_lastBoundary (ts span : Nat) (hs : 0 < span) (ht : 0 < ts)
    (hfit : ts ≤ lastBoundary span) : nextMultiple ts span ≤ lastBoundary span :=
  (nextMultiple_isBoundary ts span hs ht).2.2 _ (lastBoundary_dvd span) hfit

theorem AggBoundary_fit (ts span : Nat) (hs : 0 < span) (hs2 : span < u32Size)
    (ht : 0 < ts) (hfit : ts ≤ lastBoundary span) :
    AggBoundary ts span = nextMultiple ts span := by
  have h1 := nextMultiple_le_lastBoundary ts span hs ht hfit
  have h2 := lastBoundary_le span
  have ht2 : ts < u32Size := by unfold u32Size at *; omega
  rw [AggBoundary_eq_mod ts span hs hs2 ht ht2]
  apply Nat.mod_eq_of_lt
  unfold u32Size at *
  omega

theorem AggBoundary_zero_lt (span : Nat) (hs : 0 < span) (hs2 : span < u32Size) :
    AggBoundary 0 span < span := by
  unfold AggBoundary sub32 add32
  have e1 : (0 + u32Size - 1 % u32Size) % u32Size = u32Size - 1 := by
    unfold u32Size; omega
  rw [e1]
  have h2 := Nat.mod_lt (u32Size - 1) hs
  generalize (u32Size - 1) % span = r at *
  unfold u32Size at *
  omega

theorem span_le_nextMultiple (ts span : Nat) : span ≤ nextMultiple ts span := by
  unfold nextMultiple
  rw [Nat.add_mul]
  omega

theorem nextMultiple_mono (ts ts2 span : Nat) (hs : 0 < span) (ht : 0 < ts) (h : ts ≤ ts2) :
    nextMultiple ts span ≤ nextMultiple ts2 span := by
  have h2 := nextMultiple_isBoundary ts2 span hs (by omega)
  exact (nextMultiple_isBoundary ts span hs ht).2.2 _ h2.1 (by have := h2.2.1; omega)

/-- On timestamps at or below the last boundary, `AggBoundary` is monotone (timestamp zero
included). -/
theorem AggBoundary_mono (ts ts2 span : Nat) (hs : 0 < span) (hs2 : span < u32Size)
    (h : ts ≤ ts2) (hfit : ts2 ≤ lastBoundary span) :
    AggBoundary ts span ≤ AggBoundary ts2 span := by
  rcases Nat.eq_zero_or_pos ts with h0 | hpos
  · subst h0
    rcases Nat.eq_zero_or_pos ts2 with h1 | hpos2
    · subst h1; exact Nat.le_refl _
    · rw [AggBoundary_fit ts2 span hs hs2 hpos2 hfit]
      have := AggBoundary_zero_lt span hs hs2
      have := span_le_nextMultiple ts2 span
      omega
  · rw [AggBoundary_fit ts span hs hs2 hpos (by omega),
      AggBoundary_fit ts2 span hs hs2 (by omega) hfit]
    exact nextMultiple_mono ts ts2 span hs hpos h

/-- Beyond the last boundary `AggBoundary` wraps around: its value is the same for all such
timestamps, and it lies below the span. -/
theorem AggBoundary_wrap (ts span : Nat) (hs : 0 < span) (hs2 : span < u32Size)
    (hw : lastBoundary span < ts) (ht2 : ts < u32Size) :
    AggBoundary ts span + u32Size = lastBoundary span + span := by
  have ht : 0 < ts := by omega
  have hb := nextMultiple_isBoundary ts span hs ht
  have hlt := nextMultiple_lt ts span hs ht
  have hgt := lastBoundary_add_gt span hs
  have hle := lastBoundary_le span
  have hnm : nextMultiple ts span = lastBoundary span + span := by
    apply Nat.le_antisymm
    · exact hb.2.2 _ (Dvd.dvd.add (lastBoundary_dvd span) (dvd_refl span))
        (by unfold u32Size at *; omega)
    · obtain ⟨k, hk⟩ := hb.1
      obtain ⟨j, hj⟩ := lastBoundary_dvd span
      have hjk : j < k := by
        by_contra hn
        have : span * k ≤ span * j := Nat.mul_le_mul_left _ (by omega)
        have := hb.2.1
        omega
      have : span * (j + 1) ≤ span * k := Nat.mul_le_mul_left _ hjk
      rw [Nat.mul_add] at this
      omega
  rw [AggBoundary_eq_mod ts span hs hs2 ht ht2, hnm]
  unfold u32Size at *
  omega

/-! ## C1: the boundary of a timestamp -/

/-- C1 (counterexample): `AggBoundary` is not always the smallest multiple of the span at
or above the timestamp. For `ts = 0` and `span = 10` the subtraction `ts-1` wraps and the
result is 4, not a multiple of 10; for `ts = 4294967295` and `span = 10` the smallest
multiple, 4294967300, is no `uint32` and the result wraps to 4, below `ts`. -/
theorem aggBoundary_not_smallest_multiple :
    AggBoundary 0 10 = 4 ∧ ¬ IsBoundaryOf 0 10 (AggBoundary 0 10) ∧
    AggBoundary 4294967295 10 = 4 ∧
    ¬ IsBoundaryOf 4294967295 10 (AggBoundary 4294967295 10) := by
  have e1 : AggBoundary 0 10 = 4 := by decide
  have e2 : AggBoundary 4294967295 10 = 4 := by decide
  refine ⟨e1, ?_, e2, ?_⟩
  · rw [e1]
    intro h
    exact absurd h.1 (by decide)
  · rw [e2]
    intro h
    exact absurd h.2.1 (by decide)

/-- C1 (amended): for `uint32` values `ts ≥ 1` and `span ≥ 1`, `AggBoundary ts span` is the
smallest multiple of `span` at or above `ts`, reduced modulo `2^32`; so it is that multiple
whenever `ts` is at or below the last boundary a `uint32` holds. Moreover
`AggBoundary(span, span) = span` and, in `uint32` arithmetic,
`AggBoundary(span+1, span) = 2*span`. -/
theorem aggBoundary_smallest_multiple (ts span : Nat) (hs : 0 < span) (hs2 : span < u32Size)
    (ht : 0 < ts) (ht2 : ts < u32Size) :
    (∀ b, IsBoundaryOf ts span b → AggBoundary ts span = b % u32Size) ∧
    (ts ≤ lastBoundary span → IsBoundaryOf ts span (AggBoundary ts span)) ∧
    AggBoundary span span = span ∧
    AggBoundary (add32 span 1) span = (2 * span) % u32Size := by
  refine ⟨?_, ?_, ?_, ?_⟩
  · intro b hb
    rw [AggBoundary_eq_mod ts span hs hs2 ht ht2,
      isBoundaryOf_unique ts span b _ hb (nextMultiple_isBoundary ts span hs ht)]
  · intro hfit
    rw [AggBoundary_fit ts span hs hs2 ht hfit]
    exact nextMultiple_isBoundary ts span hs ht
  · have hfit : span ≤ lastBoundary span :=
      (le_lastBoundary_iff span span hs).2 ⟨span, dvd_refl span, Nat.le_refl span, hs2⟩
    rw [AggBoundary_fit span span hs hs2 hs hfit]
    unfold nextMultiple
    have : (span - 1) / span = 0 := Nat.div_eq_of_lt (by omega)
    rw [this]
    omega
  · by_cases hmax : span + 1 < u32Size
    · have e : add32 span 1 = span + 1 := Nat.mod_eq_of_lt hmax
      rw [e, AggBoundary_eq_mod (span + 1) span hs hs2 (by omega) hmax]
      unfold nextMultiple
      have : (span + 1 - 1) / span = 1 := by
        rw [Nat.add_sub_cancel]
        exact Nat.div_self hs
      rw [this]
    · have e : span = 4294967295 := by unfold u32Size at *; omega
      subst e
      decide

/-- C1 (witness): `ts = 11`, `span = 10`. -/
theorem aggBoundary_smallest_multiple_witness :
    AggBoundary 11 10 = 20 ∧ IsBoundaryOf 11 10 (AggBoundary 11 10) :=
  ⟨by decide,
    (aggBoundary_smallest_multiple 11 10 (by decide) (by decide) (by decide) (by decide)).2.1
      (by decide)⟩

/-! ## The steps of the aggregator -/

section Steps

variable {V : Type} [LinearOrderedRing V]

/-- The four ways `Add` returns: a point of the current window that is on the boundary
(fold, then flush) or before it (fold), and a point of a later window, with data pending
(flush, then move on and fold) or without (move on and fold). -/
theorem Add_cases (a a2 : Aggregator V) (ts : Nat) (val : V) (h : a.Add ts val = some a2) :
    a.span ≠ 0 ∧
    ((AggBoundary ts a.span = a.currentBoundary ∧ ts = a.currentBoundary ∧
        a2 = Aggregator.flush { a with agg := a.agg.Add val }) ∨
     (AggBoundary ts a.span = a.currentBoundary ∧ ts ≠ a.currentBoundary ∧
        a2 = { a with agg := a.agg.Add val }) ∨
     (a.currentBoundary < AggBoundary ts a.span ∧ a.agg.Cnt ≠ 0 ∧
        a2 = { a.flush with currentBoundary := AggBoundary ts a.span,
                            agg := a.flush.agg.Add val }) ∨
     (a.currentBoundary < AggBoundary ts a.span ∧ a.agg.Cnt = 0 ∧
        a2 = { a with currentBoundary := AggBoundary ts a.span, agg := a.agg.Add val })) := by
  unfold Aggregator.Add at h
  by_cases h0 : a.span = 0
  · simp [h0] at h
  · refine ⟨h0, ?_⟩
    simp only [h0, if_false] at h
    by_cases h1 : AggBoundary ts a.span = a.currentBoundary
    · simp only [h1, if_true] at h
      by_cases h2 : ts = a.currentBoundary
      · simp only [h2, if_true, Option.some.injEq] at h
        exact Or.inl ⟨h1, h2, h.symm⟩
      · simp only [h2, if_false, Option.some.injEq] at h
        exact Or.inr (Or.inl ⟨h1, h2, h.symm⟩)
    · simp only [h1, if_false] at h
      by_cases h3 : AggBoundary ts a.span > a.currentBoundary
      · simp only [h3, if_true, Option.some.injEq] at h
        by_cases h4 : a.agg.Cnt = 0
        · simp only [h4, ne_eq, not_true_eq_false, if_false] at h
          exact Or.inr (Or.inr (Or.inr ⟨h3, h4, h.symm⟩))
        · simp only [h4, ne_eq, not_false_eq_true, if_true] at h
          exact Or.inr (Or.inr (Or.inl ⟨h3, h4, h.symm⟩))
      · simp [h3] at h

/-- `Add` returns (does not panic) whenever the span is non-zero and the boundary of the
timestamp is not below the current boundary. -/
theorem Add_isSome (a : Aggregator V) (ts : Nat) (val : V) (hs : a.span ≠ 0)
    (h : a.currentBoundary ≤ AggBoundary ts a.span) : ∃ a2, a.Add ts val = some a2 := by
  unfold Aggregator.Add
  simp only [hs, if_false]
  by_cases h1 : AggBoundary ts a.span = a.currentBoundary
  · simp only [h1, if_true]
    by_cases h2 : ts = a.currentBoundary
    · simp [h2]
    · simp [h2]
  · have h3 : AggBoundary ts a.span > a.currentBoundary := by omega
    simp [h1, h3]

theorem Add_span (a a2 : Aggregator V) (ts : Nat) (val : V) (h : a.Add ts val = some a2) :
    a2.span = a.span ∧ a2.currentBoundary = AggBoundary ts a.span := by
  obtain ⟨_, h1 | h1 | h1 | h1⟩ := Add_cases a a2 ts val h
  · obtain ⟨e1, e2, rfl⟩ := h1
    simp [Aggregator.flush, e1]
  · obtain ⟨e1, e2, rfl⟩ := h1
    simp [e1]
  · obtain ⟨e1, e2, rfl⟩ := h1
    simp [Aggregator.flush]
  · obtain ⟨e1, e2, rfl⟩ := h1
    simp

theorem feed_append (l1 l2 : List (Nat × V)) (a : Aggregator V) :
    a.feed (l1 ++ l2) = (a.feed l1).bind (fun a1 => a1.feed l2) := by
  induction l1 generalizing a with
  | nil => simp [Aggregator.feed]
  | cons p l ih =>
    obtain ⟨ts, v⟩ := p
    simp only [List.cons_append, Aggregator.feed]
    cases h : a.Add ts v with
    | none => simp
    | some a1 => simp [ih]

/-- Induction along a run: a property of the state and of the points fed so far that holds
at the start and is kept by every `Add` that returns holds at the end of the run. -/
theorem feed_induction (P : Aggregator V → List (Nat × V) → Prop)
    (step : ∀ a done ts v a2, P a done → a.Add ts v = some a2 → P a2 (done ++ [(ts, v)]))
    (rest : List (Nat × V)) :
    ∀ (a : Aggregator V) (done : List (Nat × V)) (a2 : Aggregator V),
      P a done → a.feed rest = some a2 → P a2 (done ++ rest) := by
  induction rest with
  | nil =>
    intro a done a2 hP h
    simp only [Aggregator.feed, Option.some.injEq] at h
    subst h
    simpa using hP
  | cons p r ih =>
    intro a done a2 hP h
    obtain ⟨ts, v⟩ := p
    simp only [Aggregator.feed] at h
    cases h1 : a.Add ts v with
    | none => simp [h1] at h
    | some a1 =>
      simp only [h1, Option.some_bind] at h
      have := ih a1 (done ++ [(ts, v)]) a2 (step a done ts v a1 hP h1) h
      simpa using this

end Steps

/-! ## Sinks and the log of flushes -/

section Sinks

variable {V : Type} [LinearOrderedRing V]

omit [LinearOrderedRing V] in
theorem sinkFollows_flush (m : Option (AggMetric V)) (log : List (Nat × Aggregation V))
    (f : Aggregation V → V) (b : Nat) (g : Aggregation V) (h : sinkFollows m log f) :
    sinkFollows (m.map (fun x => x.Add b (f g))) (log ++ [(b, g)]) f := by
  intro x hx
  cases m with
  | none => simp at hx
  | some y =>
    simp only [Option.map_some', Option.some.injEq] at hx
    subst hx
    simp [AggMetric.Add, h y rfl]

theorem SinksFollowLog_flush (a : Aggregator V) (h : SinksFollowLog a) :
    SinksFollowLog a.flush := by
  obtain ⟨h1, h2, h3, h4, h5⟩ := h
  exact ⟨sinkFollows_flush _ _ (fun g => g.Min) _ _ h1,
    sinkFollows_flush _ _ (fun g => g.Max) _ _ h2,
    sinkFollows_flush _ _ (fun g => g.Sum) _ _ h3,
    sinkFollows_flush _ _ (fun g => g.Cnt) _ _ h4,
    sinkFollows_flush _ _ (fun g => g.Lst) _ _ h5⟩

omit [LinearOrderedRing V] in
theorem SinksFollowLog_congr (a b : Aggregator V) (h1 : b.minMetric = a.minMetric)
    (h2 : b.maxMetric = a.maxMetric) (h3 : b.sumMetric = a.sumMetric)
    (h4 : b.cntMetric = a.cntMetric) (h5 : b.lstMetric = a.lstMetric)
    (h6 : b.flushLog = a.flushLog) (h : SinksFollowLog a) : SinksFollowLog b := by
  unfold SinksFollowLog at h ⊢
  rw [h1, h2, h3, h4, h5, h6]
  exact h

theorem SinksFollowLog_Add (a a2 : Aggregator V) (ts : Nat) (val : V)
    (h : a.Add ts val = some a2) (hi : SinksFollowLog a) : SinksFollowLog a2 := by
  obtain ⟨_, h1 | h1 | h1 | h1⟩ := Add_cases a a2 ts val h
  · obtain ⟨_, _, rfl⟩ := h1
    exact SinksFollowLog_flush _
      (SinksFollowLog_congr a { a with agg := a.agg.Add val } rfl rfl rfl rfl rfl rfl hi)
  · obtain ⟨_, _, rfl⟩ := h1
    exact SinksFollowLog_congr a _ rfl rfl rfl rfl rfl rfl hi
  · obtain ⟨_, _, rfl⟩ := h1
    exact SinksFollowLog_congr a.flush _ rfl rfl rfl rfl rfl rfl (SinksFollowLog_flush a hi)
  · obtain ⟨_, _, rfl⟩ := h1
    exact SinksFollowLog_congr a _ rfl rfl rfl rfl rfl rfl hi

/-- What a returning `Add` does to the boundary, the accumulator and the log of flushes,
in each of its four cases. -/
theorem Add_fields (a a2 : Aggregator V) (ts : Nat) (val : V) (h : a.Add ts val = some a2) :
    a2.span = a.span ∧ a2.currentBoundary = AggBoundary ts a.span ∧
    ((AggBoundary ts a.span = a.currentBoundary ∧ ts = a.currentBoundary ∧
        a2.flushLog = a.flushLog ++ [(a.currentBoundary, a.agg.Add val)] ∧
        a2.agg = NewAggregation) ∨
     (AggBoundary ts a.span = a.currentBoundary ∧ ts ≠ a.currentBoundary ∧
        a2.flushLog = a.flushLog ∧ a2.agg = a.agg.Add val) ∨
     (a.currentBoundary < AggBoundary ts a.span ∧ a.agg.Cnt ≠ 0 ∧
        a2.flushLog = a.flushLog ++ [(a.currentBoundary, a.agg)] ∧
        a2.agg = NewAggregation.Add val) ∨
     (a.currentBoundary < AggBoundary ts a.span ∧ a.agg.Cnt = 0 ∧
        a2.flushLog = a.flushLog ∧ a2.agg = a.agg.Add val)) := by
  refine ⟨(Add_span a a2 ts val h).1, (Add_span a a2 ts val h).2, ?_⟩
  obtain ⟨_, h1 | h1 | h1 | h1⟩ := Add_cases a a2 ts val h
  · obtain ⟨e1, e2, rfl⟩ := h1
    exact Or.inl ⟨e1, e2, rfl, rfl⟩
  · obtain ⟨e1, e2, rfl⟩ := h1
    exact Or.inr (Or.inl ⟨e1, e2, rfl, rfl⟩)
  · obtain ⟨e1, e2, rfl⟩ := h1
    exact Or.inr (Or.inr (Or.inl ⟨e1, e2, rfl, rfl⟩))
  · obtain ⟨e1, e2, rfl⟩ := h1
    exact Or.inr (Or.inr (Or.inr ⟨e1, e2, rfl, rfl⟩))

theorem SinksFollowLog_of_fresh (a : Aggregator V) (h : IsFresh a) : SinksFollowLog a := by
  obtain ⟨_, _, hl, h1, h2, h3, h4, h5⟩ := h
  unfold SinksFollowLog sinkFollows
  rw [hl]
  exact ⟨h1, h2, h3, h4, h5⟩

theorem SameSinks_flush (a : Aggregator V) : SameSinks a a.flush := by
  unfold SameSinks Aggregator.flush
  refine ⟨?_, ?_, ?_, ?_, ?_⟩ <;> simp [Option.map_map, Function.comp_def, AggMetric.Add]

omit [LinearOrderedRing V] in
theorem SameSinks_congr (a b c : Aggregator V) (h1 : c.minMetric = b.minMetric)
    (h2 : c.maxMetric = b.maxMetric) (h3 : c.sumMetric = b.sumMetric)
    (h4 : c.cntMetric = b.cntMetric) (h5 : c.lstMetric = b.lstMetric)
    (h : SameSinks a b) : SameSinks a c := by
  unfold SameSinks at h ⊢
  rw [h1, h2, h3, h4, h5]
  exact h

omit [LinearOrderedRing V] in
theorem SameSinks_refl (a : Aggregator V) : SameSinks a a := ⟨rfl, rfl, rfl, rfl, rfl⟩

omit [LinearOrderedRing V] in
theorem SameSinks_trans (a b c : Aggregator V) (h1 : SameSinks a b) (h2 : SameSinks b c) :
    SameSinks a c := by
  obtain ⟨g1, g2, g3, g4, g5⟩ := h1
  obtain ⟨k1, k2, k3, k4, k5⟩ := h2
  exact ⟨k1.trans g1, k2.trans g2, k3.trans g3, k4.trans g4, k5.trans g5⟩

theorem SameSinks_Add (a a2 : Aggregator V) (ts : Nat) (val : V)
    (h : a.Add ts val = some a2) : SameSinks a a2 := by
  obtain ⟨_, h1 | h1 | h1 | h1⟩ := Add_cases a a2 ts val h
  · obtain ⟨_, _, rfl⟩ := h1
    exact SameSinks_trans a { a with agg := a.agg.Add val } _
      (SameSinks_congr a a _ rfl rfl rfl rfl rfl (SameSinks_refl a)) (SameSinks_flush _)
  · obtain ⟨_, _, rfl⟩ := h1
    exact SameSinks_congr a a _ rfl rfl rfl rfl rfl (SameSinks_refl a)
  · obtain ⟨_, _, rfl⟩ := h1
    exact SameSinks_congr a a.flush _ rfl rfl rfl rfl rfl (SameSinks_flush a)
  · obtain ⟨_, _, rfl⟩ := h1
    exact SameSinks_congr a a _ rfl rfl rfl rfl rfl (SameSinks_refl a)

theorem SameSinks_feed (pts : List (Nat × V)) (a a2 : Aggregator V)
    (h : a.feed pts = some a2) : SameSinks a a2 := by
  have := feed_induction (fun b _ => SameSinks a b)
    (fun b _ ts v b2 hb hadd => SameSinks_trans a b b2 hb (SameSinks_Add b b2 ts v hadd))
    pts a [] a2 (SameSinks_refl a) h
  exact this

theorem SinksFollowLog_feed (pts : List (Nat × V)) (a a2 : Aggregator V)
    (h : a.feed pts = some a2) (hi : SinksFollowLog a) : SinksFollowLog a2 :=
  feed_induction (fun b _ => SinksFollowLog b)
    (fun b _ ts v b2 hb hadd => SinksFollowLog_Add b b2 ts v hadd hb) pts a [] a2 hi h

theorem span_feed (pts : List (Nat × V)) (a a2 : Aggregator V)
    (h : a.feed pts = some a2) : a2.span = a.span :=
  feed_induction (fun b _ => b.span = a.span)
    (fun b _ ts v b2 hb hadd => (Add_span b b2 ts v hadd).1.trans hb) pts a [] a2 rfl h

end Sinks

/-! ## The constructor -/

section Constructor

variable {V : Type} [LinearOrderedRing V]

set_option maxHeartbeats 1000000 in
omit [LinearOrderedRing V] in
/-- The state of the loop of `NewAggregator` after the methods `ms`: the sinks that exist are
those the methods need, each new and empty, and each was created by one call. -/
theorem newAggregatorStep_inv (key : String) (span : Nat) (a : Aggregator V) (ms : List Method)
    (m : Method)
    (h : a.sumMetric = expectedSink key span "sum" (decide (Method.Avg ∈ ms ∨ Method.Sum ∈ ms)) ∧
      a.cntMetric = expectedSink key span "cnt" (decide (Method.Avg ∈ ms)) ∧
      a.lstMetric = expectedSink key span "lst" (decide (Method.Lst ∈ ms)) ∧
      a.maxMetric = expectedSink key span "max" (decide (Method.Max ∈ ms)) ∧
      a.minMetric = expectedSink key span "min" (decide (Method.Min ∈ ms)) ∧
      a.created.Nodup ∧ ∀ k, k ∈ a.created ↔ k ∈ expectedKeys key span ms) :
    (newAggregatorStep key span a m).sumMetric =
        expectedSink key span "sum" (decide (Method.Avg ∈ ms ++ [m] ∨ Method.Sum ∈ ms ++ [m])) ∧
      (newAggregatorStep key span a m).cntMetric =
        expectedSink key span "cnt" (decide (Method.Avg ∈ ms ++ [m])) ∧
      (newAggregatorStep key span a m).lstMetric =
        expectedSink key span "lst" (decide (Method.Lst ∈ ms ++ [m])) ∧
      (newAggregatorStep key span a m).maxMetric =
        expectedSink key span "max" (decide (Method.Max ∈ ms ++ [m])) ∧
      (newAggregatorStep key span a m).minMetric =
        expectedSink key span "min" (decide (Method.Min ∈ ms ++ [m])) ∧
      (newAggregatorStep key span a m).created.Nodup ∧
      ∀ k, k ∈ (newAggregatorStep key span a m).created ↔
        k ∈ expectedKeys key span (ms ++ [m]) := by
  obtain ⟨h1, h2, h3, h4, h5, h6, h7⟩ := h
  cases m
  · by_cases hA : Method.Avg ∈ ms <;> by_cases hS : Method.Sum ∈ ms <;>
      simp [newAggregatorStep, expectedSink, expectedKeys, List.nodup_append, *] at * <;>
      intro k <;> exact Iff.of_eq (by ac_rfl)
  · by_cases hA : Method.Avg ∈ ms <;> by_cases hS : Method.Sum ∈ ms <;>
      simp [newAggregatorStep, expectedSink, expectedKeys, List.nodup_append, *] at *
    intro k
    exact Iff.of_eq (by ac_rfl)
  · by_cases hL : Method.Lst ∈ ms <;>
      simp [newAggregatorStep, expectedSink, expectedKeys, List.nodup_append, *] at *
    intro k
    exact Iff.of_eq (by ac_rfl)
  · by_cases hL : Method.Max ∈ ms <;>
      simp [newAggregatorStep, expectedSink, expectedKeys, List.nodup_append, *] at *
    intro k
    exact Iff.of_eq (by ac_rfl)
  · by_cases hL : Method.Min ∈ ms <;>
      simp [newAggregatorStep, expectedSink, expectedKeys, List.nodup_append, *] at *
    intro k
    exact Iff.of_eq (by ac_rfl)
  · rename_i c
    have e : newAggregatorStep key span a (Method.other c) = a := rfl
    rw [e]
    have e2 : expectedKeys key span (ms ++ [Method.other c]) = expectedKeys key span ms := by
      simp only [expectedKeys, List.mem_append, List.mem_singleton, reduceCtorEq, or_false]
    rw [e2]
    simp only [List.mem_append, List.mem_singleton, reduceCtorEq, or_false]
    exact ⟨h1, h2, h3, h4, h5, h6, h7⟩

omit [LinearOrderedRing V] in
theorem newAggregatorStep_fields (key : String) (span : Nat) (a : Aggregator V) (m : Method) :
    (newAggregatorStep key span a m).key = a.key ∧
    (newAggregatorStep key span a m).span = a.span ∧
    (newAggregatorStep key span a m).currentBoundary = a.currentBoundary ∧
    (newAggregatorStep key span a m).agg = a.agg ∧
    (newAggregatorStep key span a m).flushLog = a.flushLog := by
  cases m <;> unfold newAggregatorStep <;> dsimp only <;> (try split_ifs) <;>
    exact ⟨rfl, rfl, rfl, rfl, rfl⟩

omit [LinearOrderedRing V] in
theorem newAggregator_loop (key : String) (span : Nat)
    (P : Aggregator V → List Method → Prop)
    (step : ∀ a ms m, P a ms → P (newAggregatorStep key span a m) (ms ++ [m]))
    (rest : List Method) :
    ∀ (a : Aggregator V) (done : List Method),
      P a done → P (rest.foldl (newAggregatorStep key span) a) (done ++ rest) := by
  induction rest with
  | nil => intro a done h; simpa using h
  | cons m r ih =>
    intro a done h
    have := ih (newAggregatorStep key span a m) (done ++ [m]) (step a done m h)
    simpa using this

/-- What `NewAggregator` returns: a fresh aggregator whose sinks are exactly those the
requested methods need, each created by one call of `NewAggMetric`. -/
theorem NewAggregator_spec (key : String) (spp : Int) (methods : List Method)
    (a0 : Aggregator V) (h : NewAggregator key spp methods = some a0) :
    methods ≠ [] ∧ a0.key = key ∧ a0.span = (spp % (u32Size : Int)).toNat ∧
    a0.currentBoundary = 0 ∧ a0.agg = NewAggregation ∧ a0.flushLog = [] ∧
    a0.sumMetric = expectedSink key a0.span "sum"
      (decide (Method.Avg ∈ methods ∨ Method.Sum ∈ methods)) ∧
    a0.cntMetric = expectedSink key a0.span "cnt" (decide (Method.Avg ∈ methods)) ∧
    a0.lstMetric = expectedSink key a0.span "lst" (decide (Method.Lst ∈ methods)) ∧
    a0.maxMetric = expectedSink key a0.span "max" (decide (Method.Max ∈ methods)) ∧
    a0.minMetric = expectedSink key a0.span "min" (decide (Method.Min ∈ methods)) ∧
    a0.created.Nodup ∧ ∀ k, k ∈ a0.created ↔ k ∈ expectedKeys key a0.span methods := by
  unfold NewAggregator at h
  by_cases hl : methods.length = 0
  · simp [hl] at h
  · simp only [hl, if_false, Option.some.injEq] at h
    have hne : methods ≠ [] := fun e => hl (by simp [e])
    have hf := newAggregator_loop key (spp % (u32Size : Int)).toNat
      (fun (a : Aggregator V) _ => a.key = key ∧ a.span = (spp % (u32Size : Int)).toNat ∧
        a.currentBoundary = 0 ∧ a.agg = NewAggregation ∧ a.flushLog = [])
      (fun a _ m hP => by
        obtain ⟨e1, e2, e3, e4, e5⟩ := newAggregatorStep_fields key _ a m
        exact ⟨e1.trans hP.1, e2.trans hP.2.1, e3.trans hP.2.2.1, e4.trans hP.2.2.2.1,
          e5.trans hP.2.2.2.2⟩)
      methods
      { key := key, span := (spp % (u32Size : Int)).toNat, currentBoundary := 0,
        agg := NewAggregation, minMetric := none, maxMetric := none, sumMetric := none,
        cntMetric := none, lstMetric := none, created := [], flushLog := [] }
      [] ⟨rfl, rfl, rfl, rfl, rfl⟩
    have hs := newAggregator_loop key (spp % (u32Size : Int)).toNat
      (fun (a : Aggregator V) ms =>
        a.sumMetric = expectedSink key (spp % (u32Size : Int)).toNat "sum"
          (decide (Method.Avg ∈ ms ∨ Method.Sum ∈ ms)) ∧
        a.cntMetric = expectedSink key (spp % (u32Size : Int)).toNat "cnt"
          (decide (Method.Avg ∈ ms)) ∧
        a.lstMetric = expectedSink key (spp % (u32Size : Int)).toNat "lst"
          (decide (Method.Lst ∈ ms)) ∧
        a.maxMetric = expectedSink key (spp % (u32Size : Int)).toNat "max"
          (decide (Method.Max ∈ ms)) ∧
        a.minMetric = expectedSink key (spp % (u32Size : Int)).toNat "min"
          (decide (Method.Min ∈ ms)) ∧
        a.created.Nodup ∧ ∀ k, k ∈ a.created ↔
          k ∈ expectedKeys key (spp % (u32Size : Int)).toNat ms)
      (fun a ms m hP => newAggregatorStep_inv key _ a ms m hP)
      methods
      { key := key, span := (spp % (u32Size : Int)).toNat, currentBoundary := 0,
        agg := NewAggregation, minMetric := none, maxMetric := none, sumMetric := none,
        cntMetric := none, lstMetric := none, created := [], flushLog := [] }
      []
      ⟨rfl, rfl, rfl, rfl, rfl, List.nodup_nil, fun k => by simp [expectedKeys]⟩
    rw [h] at hf hs
    simp only [List.nil_append] at hf hs
    obtain ⟨e1, e2, e3, e4, e5⟩ := hf
    rw [e2]
    exact ⟨hne, e1, rfl, e3, e4, e5, hs⟩

theorem NewAggregator_fresh (key : String) (spp : Int) (methods : List Method)
    (a0 : Aggregator V) (h : NewAggregator key spp methods = some a0) : IsFresh a0 := by
  obtain ⟨_, _, _, e3, e4, e5, s1, s2, s3, s4, s5, _⟩ := NewAggregator_spec key spp methods a0 h
  refine ⟨e3, e4, e5, ?_, ?_, ?_, ?_, ?_⟩ <;> intro x hx
  · rw [s5] at hx; unfold expectedSink at hx; split_ifs at hx
    simp only [Option.some.injEq] at hx; rw [← hx]; rfl
  · rw [s4] at hx; unfold expectedSink at hx; split_ifs at hx
    simp only [Option.some.injEq] at hx; rw [← hx]; rfl
  · rw [s1] at hx; unfold expectedSink at hx; split_ifs at hx
    simp only [Option.some.injEq] at hx; rw [← hx]; rfl
  · rw [s2] at hx; unfold expectedSink at hx; split_ifs at hx
    simp only [Option.some.injEq] at hx; rw [← hx]; rfl
  · rw [s3] at hx; unfold expectedSink at hx; split_ifs at hx
    simp only [Option.some.injEq] at hx; rw [← hx]; rfl

theorem NewAggregator_span_lt (key : String) (spp : Int) (methods : List Method)
    (a0 : Aggregator V) (h : NewAggregator key spp methods = some a0) : a0.span < u32Size := by
  obtain ⟨_, _, e, _⟩ := NewAggregator_spec key spp methods a0 h
  rw [e]
  have h1 : (0 : Int) ≤ spp % (u32Size : Int) := Int.emod_nonneg _ (by unfold u32Size; decide)
  have h2 : spp % (u32Size : Int) < (u32Size : Int) :=
    Int.emod_lt_of_pos _ (by unfold u32Size; decide)
  omega

end Constructor

/-! ## C2: no panic on a non-decreasing stream -/

section NoPanic

variable {V : Type} [LinearOrderedRing V]

theorem feed_isSome (pts : List (Nat × V)) :
    ∀ a : Aggregator V, a.span ≠ 0 → a.span < u32Size →
      (∀ p ∈ pts, p.1 ≤ lastBoundary a.span) →
      (pts.map Prod.fst).Pairwise (· ≤ ·) →
      (∀ p ∈ pts, a.currentBoundary ≤ AggBoundary p.1 a.span) →
      ∃ a2, a.feed pts = some a2 := by
  induction pts with
  | nil => intro a _ _ _ _ _; exact ⟨a, rfl⟩
  | cons p r ih =>
    intro a hs hs2 hfit hmono hcb
    obtain ⟨ts, v⟩ := p
    obtain ⟨a1, h1⟩ := Add_isSome a ts v hs (hcb (ts, v) (List.mem_cons_self _ _))
    obtain ⟨e1, e2⟩ := Add_span a a1 ts v h1
    simp only [List.map_cons, List.pairwise_cons, List.mem_map, Prod.exists,
      exists_and_right, exists_eq_right, forall_exists_index] at hmono
    have hrest := ih a1 (by rw [e1]; exact hs) (by rw [e1]; exact hs2)
      (fun p hp => by rw [e1]; exact hfit p (List.mem_cons_of_mem _ hp)) hmono.2
      (fun p hp => by
        rw [e1, e2]
        exact AggBoundary_mono ts p.1 a.span (Nat.pos_of_ne_zero hs) hs2
          (hmono.1 p.1 p.2 hp) (hfit p (List.mem_cons_of_mem _ hp)))
    obtain ⟨a2, h2⟩ := hrest
    exact ⟨a2, by simp [Aggregator.feed, h1, h2]⟩

end NoPanic

/-- C2 (counterexample): span 10 and the non-decreasing stream of timestamps 4294967290,
4294967291. The first point sets the current boundary to 4294967290; the boundary of the
second, 4294967300, wraps to 4 in `uint32`, and `Add` panics. -/
theorem feed_panics_on_sorted_stream :
    List.Pairwise (· ≤ ·) [4294967290, 4294967291] ∧
    AggBoundary 4294967291 10 = 4 ∧
    ((NewAggregator "m" 10 [Method.Sum] : Option (Aggregator ℤ)).bind
      (fun a => a.feed [(4294967290, 1), (4294967291, 1)])) = none := by
  refine ⟨by decide, by decide, by decide⟩

/-- C2 (amended): for a span above zero and a non-decreasing stream none of whose
timestamps lies beyond the last boundary a `uint32` holds, feeding the stream to a fresh
aggregator returns: no `Add` reaches the panic. -/
theorem feed_never_panics {V : Type} [LinearOrderedRing V] (key : String) (spp : Int)
    (methods : List Method) (a0 : Aggregator V) (pts : List (Nat × V))
    (h0 : NewAggregator key spp methods = some a0) (hs : 0 < a0.span)
    (hfit : ∀ p ∈ pts, p.1 ≤ lastBoundary a0.span)
    (hmono : (pts.map Prod.fst).Pairwise (· ≤ ·)) :
    ∃ a, a0.feed pts = some a :=
  feed_isSome pts a0 (by omega) (NewAggregator_span_lt key spp methods a0 h0) hfit hmono
    (fun _ _ => by rw [(NewAggregator_fresh key spp methods a0 h0).1]; exact Nat.zero_le _)

/-- C2 (witness): the stream of the scenario, span 10. -/
theorem feed_never_panics_witness :
    NewAggregator "m" 10 [Method.Avg] = some demoFresh ∧
    demoFresh.feed demoStream = some demoFinal ∧ ∃ a, demoFresh.feed demoStream = some a :=
  ⟨by decide, by decide,
    feed_never_panics "m" 10 [Method.Avg] demoFresh demoStream (by decide) (by decide)
      (by decide) (by decide)⟩

/-! ## C4: no flush of an empty accumulator -/

section Count

variable {V : Type} [LinearOrderedRing V]

theorem count_invariant (pts : List (Nat × V)) (a a2 : Aggregator V)
    (h : a.feed pts = some a2)
    (hi : 0 ≤ a.agg.Cnt ∧ ∀ e ∈ a.flushLog, 0 < e.2.Cnt) :
    0 ≤ a2.agg.Cnt ∧ ∀ e ∈ a2.flushLog, 0 < e.2.Cnt := by
  refine feed_induction (fun b _ => 0 ≤ b.agg.Cnt ∧ ∀ e ∈ b.flushLog, 0 < e.2.Cnt)
    ?_ pts a [] a2 hi h
  intro b _ ts v b2 hb hadd
  obtain ⟨hc, hl⟩ := hb
  have hadd1 : 0 < (b.agg.Add v).Cnt := by
    show 0 < b.agg.Cnt + 1
    exact add_pos_of_nonneg_of_pos hc one_pos
  obtain ⟨_, _, h1 | h1 | h1 | h1⟩ := Add_fields b b2 ts v hadd
  · obtain ⟨_, _, e1, e2⟩ := h1
    rw [e1, e2]
    refine ⟨le_refl _, ?_⟩
    intro e he
    rcases List.mem_append.1 he with he | he
    · exact hl e he
    · rw [List.mem_singleton.1 he]; exact hadd1
  · obtain ⟨_, _, e1, e2⟩ := h1
    rw [e1, e2]
    exact ⟨le_of_lt hadd1, hl⟩
  · obtain ⟨_, hne, e1, e2⟩ := h1
    rw [e1, e2]
    refine ⟨?_, ?_⟩
    · show (0 : V) ≤ 0 + 1
      simp
    · intro e he
      rcases List.mem_append.1 he with he | he
      · exact hl e he
      · rw [List.mem_singleton.1 he]; exact lt_of_le_of_ne hc (Ne.symm hne)
  · obtain ⟨_, _, e1, e2⟩ := h1
    rw [e1, e2]
    exact ⟨le_of_lt hadd1, hl⟩

end Count

/-- C4: in every run of `Add` from a fresh aggregator, on any sequence of points, every
call of `flush` finds a non-zero count in the accumulator; so every point the count sink
receives is non-zero. (A run that panics has flushed what its longest returning part has
flushed.) -/
theorem flush_only_with_data {V : Type} [LinearOrderedRing V] (key : String) (spp : Int)
    (methods : List Method) (a0 a : Aggregator V) (pts : List (Nat × V))
    (h0 : NewAggregator key spp methods = some a0) (h : a0.feed pts = some a) :
    (∀ e ∈ a.flushLog, e.2.Cnt ≠ 0) ∧
    (∀ m, a.cntMetric = some m → ∀ p ∈ m.points, p.2 ≠ 0) := by
  have hf := NewAggregator_fresh key spp methods a0 h0
  have hc := count_invariant pts a0 a h
    ⟨by rw [hf.2.1]; exact le_refl _, by rw [hf.2.2.1]; intro e he; simp at he⟩
  have hl := SinksFollowLog_feed pts a0 a h (SinksFollowLog_of_fresh a0 hf)
  refine ⟨fun e he => ne_of_gt (hc.2 e he), ?_⟩
  intro m hm p hp
  rw [hl.2.2.2.1 m hm] at hp
  obtain ⟨e, he, rfl⟩ := List.mem_map.1 hp
  exact ne_of_gt (hc.2 e he)

/-- C4 (witness): the scenario; its one flush had count 3. -/
theorem flush_only_with_data_witness :
    demoFinal.flushLog ≠ [] ∧
    ((∀ e ∈ demoFinal.flushLog, e.2.Cnt ≠ 0) ∧
     (∀ m, demoFinal.cntMetric = some m → ∀ p ∈ m.points, p.2 ≠ 0)) :=
  ⟨by decide,
    flush_only_with_data "m" 10 [Method.Avg] demoFresh demoFinal demoStream (by decide)
      (by decide)⟩

/-! ## Windows: which points a flush covers -/

section WindowsSec

variable {V : Type} [LinearOrderedRing V]

theorem accOf_snoc (l : List (Nat × V)) (p : Nat × V) :
    accOf (l ++ [p]) = (accOf l).Add p.2 := by
  simp [accOf, List.foldl_append]

theorem accOf_Cnt (l : List (Nat × V)) : (accOf l).Cnt = (l.length : V) := by
  induction l using List.reverseRecOn with
  | nil => simp [accOf, NewAggregation]
  | append_singleton l p ih =>
    rw [accOf_snoc]
    show (accOf l).Cnt + 1 = _
    rw [ih]
    simp

theorem accOf_Sum (l : List (Nat × V)) : (accOf l).Sum = (l.map Prod.snd).sum := by
  induction l using List.reverseRecOn with
  | nil => simp [accOf, NewAggregation]
  | append_singleton l p ih =>
    rw [accOf_snoc]
    show (accOf l).Sum + p.2 = _
    rw [ih]
    simp

theorem accOf_Cnt_eq_zero (l : List (Nat × V)) (h : (accOf l).Cnt = 0) : l = [] := by
  rw [accOf_Cnt] at h
  have : l.length = 0 := by exact_mod_cast h
  exact List.length_eq_zero.1 this

omit [LinearOrderedRing V] in
theorem groupBoundary_eq (span b : Nat) (g : List (Nat × V)) (hne : g ≠ [])
    (h : ∀ p ∈ g, AggBoundary p.1 span = b) : groupBoundary span g = b := by
  cases g with
  | nil => exact absurd rfl hne
  | cons p r => exact h p (List.mem_cons_self _ _)

/-- One returning `Add` keeps the cut into windows: the point joins the pending points, and
a flush closes the pending points as one more group. -/
theorem Windows_Add (a a2 : Aggregator V) (ts : Nat) (v : V) (done : List (Nat × V))
    (groups : List (List (Nat × V))) (rest : List (Nat × V))
    (hadd : a.Add ts v = some a2) (hw : Windows a done groups rest) :
    ∃ groups2 rest2, Windows a2 (done ++ [(ts, v)]) groups2 rest2 := by
  obtain ⟨hd, hl, hacc, hr, hg⟩ := hw
  obtain ⟨es, ecb, h1 | h1 | h1 | h1⟩ := Add_fields a a2 ts v hadd
  · obtain ⟨eb, et, e1, e2⟩ := h1
    have hmem : ∀ p ∈ rest ++ [(ts, v)], AggBoundary p.1 a.span = a.currentBoundary := by
      intro p hp
      rcases List.mem_append.1 hp with hp | hp
      · exact hr p hp
      · rw [List.mem_singleton.1 hp]; exact eb
    have hgb := groupBoundary_eq a.span a.currentBoundary (rest ++ [(ts, v)]) (by simp) hmem
    refine ⟨groups ++ [rest ++ [(ts, v)]], [], ?_, ?_, ?_, ?_, ?_⟩
    · simp [hd]
    · rw [e1, es, hl, List.map_append, List.map_singleton, hgb, accOf_snoc, hacc]
    · rw [e2]; rfl
    · intro p hp; simp at hp
    · intro g hg2
      rw [es]
      rcases List.mem_append.1 hg2 with hg2 | hg2
      · exact hg g hg2
      · rw [List.mem_singleton.1 hg2]
        exact ⟨by simp, fun p hp => by rw [hgb]; exact hmem p hp⟩
  · obtain ⟨eb, et, e1, e2⟩ := h1
    refine ⟨groups, rest ++ [(ts, v)], ?_, ?_, ?_, ?_, ?_⟩
    · simp [hd]
    · rw [e1, es, hl]
    · rw [e2, accOf_snoc, hacc]
    · intro p hp
      rw [es, ecb]
      rcases List.mem_append.1 hp with hp | hp
      · rw [hr p hp, eb]
      · rw [List.mem_singleton.1 hp]
    · intro g hg2; rw [es]; exact hg g hg2
  · obtain ⟨eb, hne, e1, e2⟩ := h1
    have hrne : rest ≠ [] := by
      intro e
      apply hne
      rw [hacc, e]
      rfl
    have hgb := groupBoundary_eq a.span a.currentBoundary rest hrne hr
    refine ⟨groups ++ [rest], [(ts, v)], ?_, ?_, ?_, ?_, ?_⟩
    · simp [hd]
    · rw [e1, es, hl, List.map_append, List.map_singleton, hgb, hacc]
    · rw [e2]; rfl
    · intro p hp
      rw [List.mem_singleton.1 hp, es, ecb]
    · intro g hg2
      rw [es]
      rcases List.mem_append.1 hg2 with hg2 | hg2
      · exact hg g hg2
      · rw [List.mem_singleton.1 hg2]
        exact ⟨hrne, fun p hp => by rw [hgb]; exact hr p hp⟩
  · obtain ⟨eb, hz, e1, e2⟩ := h1
    have hrnil : rest = [] := accOf_Cnt_eq_zero rest (by rw [← hacc]; exact hz)
    subst hrnil
    refine ⟨groups, [(ts, v)], ?_, ?_, ?_, ?_, ?_⟩
    · simp [hd]
    · rw [e1, es, hl]
    · rw [e2, hacc]; rfl
    · intro p hp
      rw [List.mem_singleton.1 hp, es, ecb]
    · intro g hg2; rw [es]; exact hg g hg2

theorem Windows_fresh (a : Aggregator V) (h : IsFresh a) : Windows a [] [] [] := by
  obtain ⟨_, h2, h3, _⟩ := h
  exact ⟨rfl, by rw [h3]; rfl, by rw [h2]; rfl, fun p hp => by simp at hp,
    fun g hg => by simp at hg⟩

theorem Windows_feed (pts : List (Nat × V)) (a0 a : Aggregator V) (hf : IsFresh a0)
    (h : a0.feed pts = some a) : ∃ groups rest, Windows a pts groups rest := by
  have := feed_induction (fun (b : Aggregator V) done => ∃ groups rest, Windows b done groups rest)
    (fun b done ts v b2 hb hadd => by
      obtain ⟨groups, rest, hw⟩ := hb
      exact Windows_Add b b2 ts v done groups rest hadd hw)
    pts a0 [] a ⟨[], [], Windows_fresh a0 hf⟩ h
  simpa using this

theorem Windows_groups_nil (a : Aggregator V) (done : List (Nat × V))
    (groups : List (List (Nat × V))) (rest : List (Nat × V))
    (hw : Windows a done groups rest) (h : a.flushLog = []) : groups = [] := by
  have := hw.2.1
  rw [h] at this
  exact List.map_eq_nil_iff.1 this.symm

theorem Windows_nil (a : Aggregator V) (groups : List (List (Nat × V)))
    (rest : List (Nat × V)) (hw : Windows a [] groups rest) :
    a.flushLog = [] ∧ a.agg.Cnt = 0 := by
  obtain ⟨hd, hl, hacc, _, hg⟩ := hw
  have h1 := List.append_eq_nil.1 hd.symm
  have hgn : groups = [] := by
    cases groups with
    | nil => rfl
    | cons g r =>
      exfalso
      have hg1 := (hg g (List.mem_cons_self _ _)).1
      have : g = [] := by
        have h2 := h1.1
        simp only [List.flatten_cons, List.append_eq_nil] at h2
        exact h2.1
      exact hg1 this
  refine ⟨by rw [hl, hgn]; rfl, ?_⟩
  rw [hacc, h1.2]
  rfl

end WindowsSec

/-! ## Streams that reach beyond the last boundary -/

section Beyond

variable {V : Type} [LinearOrderedRing V]

/-- A non-decreasing stream of non-zero timestamps either stays at or below the last
boundary, or lies beyond it as a whole and then nothing is ever flushed: once a point at or
below the last boundary was fed, a point beyond it makes `Add` panic. -/
theorem fit_or_silent (pts : List (Nat × V)) (a0 a : Aggregator V) (hf : IsFresh a0)
    (hs : 0 < a0.span) (hs2 : a0.span < u32Size) (h : a0.feed pts = some a)
    (hpos : ∀ p ∈ pts, 0 < p.1 ∧ p.1 < u32Size)
    (hmono : (pts.map Prod.fst).Pairwise (· ≤ ·)) :
    (∀ p ∈ pts, p.1 ≤ lastBoundary a0.span) ∨ a.flushLog = [] := by
  have key := feed_induction
    (fun (b : Aggregator V) done =>
      b.span = a0.span ∧
      (done = [] → b.currentBoundary = 0 ∧ b.flushLog = [] ∧ b.agg.Cnt = 0) ∧
      (done ≠ [] → ∃ q ∈ done, b.currentBoundary = AggBoundary q.1 a0.span) ∧
      ((∀ p ∈ done, 0 < p.1 ∧ p.1 < u32Size) → (done.map Prod.fst).Pairwise (· ≤ ·) →
        ((∀ p ∈ done, p.1 ≤ lastBoundary a0.span) ∨
         (b.flushLog = [] ∧ done ≠ [] ∧ (∀ p ∈ done, lastBoundary a0.span < p.1) ∧
            b.currentBoundary + u32Size = lastBoundary a0.span + a0.span))))
    ?_ pts a0 [] a
    ⟨rfl, fun _ => ⟨hf.1, hf.2.2.1, by rw [hf.2.1]; rfl⟩, fun hne => absurd rfl hne,
      fun _ _ => Or.inl (fun p hp => by simp at hp)⟩ h
  · simp only [List.nil_append] at key
    rcases key.2.2.2 hpos hmono with hl | hr
    · exact Or.inl hl
    · exact Or.inr hr.1
  · intro b done ts v b2 hb hadd
    obtain ⟨hspan, hnil, hlast, hJ⟩ := hb
    obtain ⟨es, ecb, hcase⟩ := Add_fields b b2 ts v hadd
    rw [hspan] at es ecb hcase
    refine ⟨es, fun e => by simp at e, fun _ => ⟨(ts, v), by simp, ecb⟩, ?_⟩
    intro hpos2 hmono2
    have hposd : ∀ p ∈ done, 0 < p.1 ∧ p.1 < u32Size :=
      fun p hp => hpos2 p (List.mem_append_left _ hp)
    have hts : 0 < ts ∧ ts < u32Size := hpos2 (ts, v) (by simp)
    rw [List.map_append, List.pairwise_append] at hmono2
    have hle : ∀ p ∈ done, p.1 ≤ ts := fun p hp =>
      hmono2.2.2 p.1 (List.mem_map_of_mem _ hp) ts (by simp)
    have hLle := lastBoundary_le a0.span
    rcases hJ hposd hmono2.1 with hfit | ⟨hlog, hne, hbey, hcb⟩
    · by_cases htl : ts ≤ lastBoundary a0.span
      · left
        intro p hp
        rcases List.mem_append.1 hp with hp | hp
        · exact hfit p hp
        · rw [List.mem_singleton.1 hp]; exact htl
      · have hw := AggBoundary_wrap ts a0.span hs hs2 (by omega) hts.2
        by_cases hd : done = []
        · obtain ⟨c0, l0, n0⟩ := hnil hd
          right
          refine ⟨?_, by simp, ?_, by rw [ecb]; exact hw⟩
          · rcases hcase with h1 | h1 | h1 | h1
            · omega
            · rw [h1.2.2.1]; exact l0
            · exact absurd n0 h1.2.1
            · rw [h1.2.2.1]; exact l0
          · intro p hp
            rw [hd] at hp
            simp only [List.nil_append, List.mem_singleton] at hp
            rw [hp]
            omega
        · exfalso
          obtain ⟨q, hq, hcq⟩ := hlast hd
          have hqf := AggBoundary_fit q.1 a0.span hs hs2 (hposd q hq).1 (hfit q hq)
          have hsp := span_le_nextMultiple q.1 a0.span
          unfold u32Size at *
          rcases hcase with h1 | h1 | h1 | h1 <;> omega
    · right
      obtain ⟨q, hq⟩ := List.exists_mem_of_ne_nil done hne
      have hq1 := hbey q hq
      have hq2 := hle q hq
      have hw := AggBoundary_wrap ts a0.span hs hs2 (by omega) hts.2
      refine ⟨?_, by simp, ?_, by rw [ecb]; exact hw⟩
      · unfold u32Size at *
        rcases hcase with h1 | h1 | h1 | h1
        · omega
        · rw [h1.2.2.1]; exact hlog
        · omega
        · omega
      · intro p hp
        rcases List.mem_append.1 hp with hp | hp
        · exact hbey p hp
        · rw [List.mem_singleton.1 hp]; omega

end Beyond

/-! ## C3: what the sum and count sinks receive -/

section Emitted

variable {V : Type} [LinearOrderedRing V]

omit [LinearOrderedRing V] in
theorem sink_isSome_of_sameSinks (m0 m : Option (AggMetric V))
    (h : m.map (fun x => x.key) = m0.map (fun x => x.key)) (h0 : m0.isSome) :
    ∃ x, m = some x := by
  cases m with
  | some x => exact ⟨x, rfl⟩
  | none =>
    cases m0 with
    | none => simp at h0
    | some y => simp at h

/-- A timestamp `ts ≥ 1` at or below the last boundary lies in the window that ends at its
boundary: the boundary is a multiple of the span, and `boundary - span < ts ≤ boundary`. -/
theorem window_of_fit (ts span : Nat) (hs : 0 < span) (hs2 : span < u32Size) (ht : 0 < ts)
    (hfit : ts ≤ lastBoundary span) :
    span ∣ AggBoundary ts span ∧ ts ≤ AggBoundary ts span ∧
      AggBoundary ts span < ts + span := by
  rw [AggBoundary_fit ts span hs hs2 ht hfit]
  exact ⟨(nextMultiple_isBoundary ts span hs ht).1, (nextMultiple_isBoundary ts span hs ht).2.1,
    nextMultiple_lt ts span hs ht⟩

end Emitted

/-- C3 (counterexample): span 10, sum and count sinks, the non-decreasing stream `(0,1)`,
`(10,1)`. The boundary computed for timestamp 0 is 4, and the second point flushes the
first at timestamp 4, which is not a multiple of 10. -/
theorem flush_at_non_multiple :
    List.Pairwise (· ≤ ·) [0, 10] ∧
    ((NewAggregator "m" 10 [Method.Avg] : Option (Aggregator ℤ)).bind
      (fun a => a.feed [(0, 1), (10, 1)])).map (fun a => sinkPoints a.sumMetric)
      = some (some [(4, 1)]) ∧
    ¬ (10 ∣ 4) := by
  refine ⟨by decide, by decide, by decide⟩

/-- C3 (amended): for a span above zero and a non-decreasing stream of non-zero `uint32`
timestamps fed to a fresh aggregator with sum and count sinks (method `Avg` requested),
whenever the run returns the stream is a sequence of groups of consecutive points, one per
flush, followed by the points still pending; the sum sink holds, per group and in order,
the boundary `B` of the group with the sum of its values, the count sink the same `B` with
the number of its points; every group is non-empty, `B` is a multiple of the span and every
point of the group has `B - span < ts ≤ B` (whether the flush was the immediate or the
deferred one); the accumulator holds the sum and the number of the pending points. The run
returns whenever no timestamp lies beyond the last boundary a `uint32` holds. -/
theorem flush_emits_window {V : Type} [LinearOrderedRing V] (key : String) (spp : Int)
    (methods : List Method) (a0 : Aggregator V) (pts : List (Nat × V))
    (h0 : NewAggregator key spp methods = some a0) (hs : 0 < a0.span)
    (havg : Method.Avg ∈ methods)
    (hpos : ∀ p ∈ pts, 0 < p.1 ∧ p.1 < u32Size)
    (hmono : (pts.map Prod.fst).Pairwise (· ≤ ·)) :
    (∀ a, a0.feed pts = some a → ∃ (groups : List (List (Nat × V))) (rest : List (Nat × V)),
      pts = groups.flatten ++ rest ∧
      sinkPoints a.sumMetric =
        some (groups.map (fun g => (groupBoundary a0.span g, (g.map Prod.snd).sum))) ∧
      sinkPoints a.cntMetric =
        some (groups.map (fun g => (groupBoundary a0.span g, (g.length : V)))) ∧
      (∀ g ∈ groups, g ≠ [] ∧ a0.span ∣ groupBoundary a0.span g ∧
        ∀ p ∈ g, p.1 ≤ groupBoundary a0.span g ∧ groupBoundary a0.span g < p.1 + a0.span) ∧
      a.agg.Sum = (rest.map Prod.snd).sum ∧ a.agg.Cnt = (rest.length : V)) ∧
    ((∀ p ∈ pts, p.1 ≤ lastBoundary a0.span) → ∃ a, a0.feed pts = some a) := by
  have hf := NewAggregator_fresh key spp methods a0 h0
  have hs2 := NewAggregator_span_lt key spp methods a0 h0
  obtain ⟨_, _, _, _, _, _, s1, s2, _⟩ := NewAggregator_spec key spp methods a0 h0
  refine ⟨?_, fun hfit => feed_isSome pts a0 (by omega) hs2 hfit hmono
    (fun _ _ => by rw [hf.1]; exact Nat.zero_le _)⟩
  intro a h
  obtain ⟨groups, rest, hw⟩ := Windows_feed pts a0 a hf h
  have hspan := span_feed pts a0 a h
  have hl := SinksFollowLog_feed pts a0 a h (SinksFollowLog_of_fresh a0 hf)
  have hss := SameSinks_feed pts a0 a h
  obtain ⟨hd, hlog, hacc, _, hg⟩ := hw
  rw [hspan] at hlog hg
  obtain ⟨ms, hms⟩ := sink_isSome_of_sameSinks a0.sumMetric a.sumMetric hss.2.2.1
    (by rw [s1]; simp [expectedSink, havg])
  obtain ⟨mc, hmc⟩ := sink_isSome_of_sameSinks a0.cntMetric a.cntMetric hss.2.2.2.1
    (by rw [s2]; simp [expectedSink, havg])
  refine ⟨groups, rest, hd, ?_, ?_, ?_, ?_, ?_⟩
  · rw [hms]
    show some ms.points = _
    rw [hl.2.2.1 ms hms, hlog, List.map_map]
    congr 1
    apply List.map_congr_left
    intro g _
    simp [accOf_Sum]
  · rw [hmc]
    show some mc.points = _
    rw [hl.2.2.2.1 mc hmc, hlog, List.map_map]
    congr 1
    apply List.map_congr_left
    intro g _
    simp [accOf_Cnt]
  · intro g hgm
    obtain ⟨hne, hmem⟩ := hg g hgm
    have hfs := fit_or_silent pts a0 a hf hs hs2 h hpos hmono
    rcases hfs with hfit | hsil
    · have hin : ∀ p ∈ g, p ∈ pts := by
        intro p hp
        rw [hd]
        exact List.mem_append_left _ (List.mem_flatten.2 ⟨g, hgm, hp⟩)
      obtain ⟨q, hq⟩ := List.exists_mem_of_ne_nil g hne
      have hwq := window_of_fit q.1 a0.span hs hs2 (hpos q (hin q hq)).1 (hfit q (hin q hq))
      rw [hmem q hq] at hwq
      refine ⟨hne, hwq.1, ?_⟩
      intro p hp
      have hwp := window_of_fit p.1 a0.span hs hs2 (hpos p (hin p hp)).1 (hfit p (hin p hp))
      rw [hmem p hp] at hwp
      exact ⟨hwp.2.1, hwp.2.2⟩
    · exfalso
      rw [hsil] at hlog
      have := List.map_eq_nil_iff.1 hlog.symm
      rw [this] at hgm
      simp at hgm
  · rw [hacc, accOf_Sum]
  · rw [hacc, accOf_Cnt]

/-- C3 (witness): the scenario of the specification. Span 10; the points `(5,2)`, `(9,4)`,
`(10,6)` give one flush, the sum sink receiving `(10,12)` and the count sink `(10,3)` (the
immediate flush; without `(10,6)` the point `(15,1)` flushes the same window at the same
timestamp 10, the deferred flush); after `(10,6)` the following point `(15,1)` emits
nothing. -/
theorem flush_emits_window_witness :
    (demoFresh.feed [(5, 2), (9, 4), (10, 6)]).map
        (fun a => (sinkPoints a.sumMetric, sinkPoints a.cntMetric)) =
      some (some [(10, 12)], some [(10, 3)]) ∧
    (demoFresh.feed [(5, 2), (9, 4), (15, 1)]).map
        (fun a => (sinkPoints a.sumMetric, sinkPoints a.cntMetric)) =
      some (some [(10, 6)], some [(10, 2)]) ∧
    (demoFresh.feed demoStream).map
        (fun a => (sinkPoints a.sumMetric, sinkPoints a.cntMetric)) =
      some (some [(10, 12)], some [(10, 3)]) ∧
    ∃ (groups : List (List (Nat × ℤ))) (rest : List (Nat × ℤ)),
      demoStream = groups.flatten ++ rest ∧
      sinkPoints demoFinal.sumMetric =
        some (groups.map (fun g => (groupBoundary demoFresh.span g, (g.map Prod.snd).sum))) ∧
      sinkPoints demoFinal.cntMetric =
        some (groups.map (fun g => (groupBoundary demoFresh.span g, (g.length : ℤ)))) ∧
      (∀ g ∈ groups, g ≠ [] ∧ demoFresh.span ∣ groupBoundary demoFresh.span g ∧
        ∀ p ∈ g, p.1 ≤ groupBoundary demoFresh.span g ∧
          groupBoundary demoFresh.span g < p.1 + demoFresh.span) ∧
      demoFinal.agg.Sum = (rest.map Prod.snd).sum ∧ demoFinal.agg.Cnt = (rest.length : ℤ) :=
  ⟨by decide, by decide, by decide,
    (flush_emits_window "m" 10 [Method.Avg] demoFresh demoStream (by decide) (by decide)
      (by decide) (by decide) (by decide)).1 demoFinal (by decide)⟩

/-! ## C5: one point per boundary -/

section OnePerBoundary

variable {V : Type} [LinearOrderedRing V]

/-- Along a strictly increasing stream the boundaries of the flushes increase strictly. -/
theorem flushes_increasing (pts : List (Nat × V)) (a0 a : Aggregator V) (hf : IsFresh a0)
    (hs : 0 < a0.span) (hs2 : a0.span < u32Size) (h : a0.feed pts = some a)
    (hlt : ∀ p ∈ pts, p.1 < u32Size)
    (hmono : (pts.map Prod.fst).Pairwise (· < ·)) :
    (a.flushLog.map Prod.fst).Pairwise (· < ·) := by
  have key := feed_induction
    (fun (b : Aggregator V) done =>
      b.span = a0.span ∧
      ((∀ p ∈ done, p.1 < u32Size) → (done.map Prod.fst).Pairwise (· < ·) →
        (b.flushLog.map Prod.fst).Pairwise (· < ·) ∧
        ((∀ e ∈ b.flushLog, e.1 < b.currentBoundary) ∨
         ((∀ e ∈ b.flushLog, e.1 ≤ b.currentBoundary) ∧ b.agg.Cnt = 0 ∧
            ∃ q ∈ done, q.1 = b.currentBoundary) ∨
         ((∀ e ∈ b.flushLog, e.1 ≤ b.currentBoundary) ∧
            (∃ q ∈ done, lastBoundary a0.span < q.1) ∧
            b.currentBoundary + u32Size = lastBoundary a0.span + a0.span))))
    ?_ pts a0 [] a
    ⟨rfl, fun _ _ => by
      rw [hf.2.2.1]
      exact ⟨List.Pairwise.nil, Or.inl (fun e he => by simp at he)⟩⟩ h
  · simp only [List.nil_append] at key
    exact (key.2 hlt hmono).1
  · intro b done ts v b2 hb hadd
    obtain ⟨hspan, hK⟩ := hb
    obtain ⟨es, ecb, hcase⟩ := Add_fields b b2 ts v hadd
    rw [hspan] at es ecb hcase
    refine ⟨es, ?_⟩
    intro hlt2 hmono2
    have hltd : ∀ p ∈ done, p.1 < u32Size := fun p hp => hlt2 p (List.mem_append_left _ hp)
    have hts : ts < u32Size := hlt2 (ts, v) (by simp)
    rw [List.map_append, List.pairwise_append] at hmono2
    have hgt : ∀ p ∈ done, p.1 < ts := fun p hp =>
      hmono2.2.2 p.1 (List.mem_map_of_mem _ hp) ts (by simp)
    have hLle := lastBoundary_le a0.span
    obtain ⟨hpw, hstate⟩ := hK hltd hmono2.1
    have hpw2 : (∀ e ∈ b.flushLog, e.1 < b.currentBoundary) → ∀ g : Aggregation V,
        ((b.flushLog ++ [(b.currentBoundary, g)]).map Prod.fst).Pairwise (· < ·) := by
      intro hall g
      rw [List.map_append, List.pairwise_append]
      refine ⟨hpw, by simp, ?_⟩
      intro x hx y hy
      obtain ⟨e, he, rfl⟩ := List.mem_map.1 hx
      simp only [List.map_cons, List.map_nil, List.mem_singleton] at hy
      rw [hy]
      exact hall e he
    have hmemlog : ∀ (g : Aggregation V) (c : Nat),
        (∀ e ∈ b.flushLog, e.1 ≤ c) → b.currentBoundary ≤ c →
        ∀ e ∈ b.flushLog ++ [(b.currentBoundary, g)], e.1 ≤ c := by
      intro g c hall hc e he
      rcases List.mem_append.1 he with he | he
      · exact hall e he
      · rw [List.mem_singleton.1 he]; exact hc
    rcases hstate with hX | ⟨hle, hcnt, q, hq, hqcb⟩ | ⟨hle, ⟨q, hq, hqL⟩, hcb⟩
    · rcases hcase with h1 | h1 | h1 | h1
      · obtain ⟨eb, et, e1, e2⟩ := h1
        rw [e1, e2, ecb, eb]
        refine ⟨hpw2 hX _, Or.inr (Or.inl ⟨?_, rfl, (ts, v), by simp, et⟩)⟩
        exact hmemlog _ _ (fun e he => Nat.le_of_lt (hX e he)) (Nat.le_refl _)
      · obtain ⟨eb, et, e1, e2⟩ := h1
        rw [e1, ecb, eb]
        exact ⟨hpw, Or.inl hX⟩
      · obtain ⟨eb, hne, e1, e2⟩ := h1
        rw [e1, ecb]
        refine ⟨hpw2 hX _, Or.inl ?_⟩
        intro e he
        have := hmemlog _ _ (fun e he => Nat.le_of_lt (hX e he)) (Nat.le_refl _) e he
        omega
      · obtain ⟨eb, hz, e1, e2⟩ := h1
        rw [e1, ecb]
        exact ⟨hpw, Or.inl (fun e he => by have := hX e he; omega)⟩
    · have hq2 := hgt q hq
      rcases hcase with h1 | h1 | h1 | h1
      · omega
      · obtain ⟨eb, et, e1, e2⟩ := h1
        rw [e1, ecb, eb]
        have hbey : lastBoundary a0.span < ts := by
          by_contra hn
          have := (window_of_fit ts a0.span hs hs2 (by omega) (by omega)).2.1
          omega
        have hw := AggBoundary_wrap ts a0.span hs hs2 hbey hts
        exact ⟨hpw, Or.inr (Or.inr ⟨hle, ⟨(ts, v), by simp, hbey⟩, by omega⟩)⟩
      · exact absurd hcnt h1.2.1
      · obtain ⟨eb, hz, e1, e2⟩ := h1
        rw [e1, ecb]
        exact ⟨hpw, Or.inl (fun e he => by have := hle e he; omega)⟩
    · have hq2 := hgt q hq
      have hw := AggBoundary_wrap ts a0.span hs hs2 (by omega) hts
      unfold u32Size at hw hcb hLle hs2
      rcases hcase with h1 | h1 | h1 | h1
      · omega
      · obtain ⟨eb, et, e1, e2⟩ := h1
        rw [e1, ecb, eb]
        exact ⟨hpw, Or.inr (Or.inr ⟨hle, ⟨q, List.mem_append_left _ hq, hqL⟩, hcb⟩)⟩
      · omega
      · omega

omit [LinearOrderedRing V] in
theorem sinkTimestamps_of_follows (m : Option (AggMetric V)) (log : List (Nat × Aggregation V))
    (f : Aggregation V → V) (h : sinkFollows m log f)
    (hn : (log.map Prod.fst).Nodup) : (sinkTimestamps m).Nodup := by
  cases m with
  | none => exact List.nodup_nil
  | some x =>
    show (x.points.map Prod.fst).Nodup
    rw [h x rfl, List.map_map]
    exact hn

end OnePerBoundary

/-- C5 (counterexample): span 10 and the non-decreasing stream `(5,1)`, `(10,2)`, `(10,4)`.
The second point is on the boundary and flushes `(10,3)`; the third has the same timestamp,
is folded into the emptied accumulator and flushed at once as `(10,4)`: the sum sink holds
two points of timestamp 10. -/
theorem two_points_for_one_boundary :
    List.Pairwise (· ≤ ·) [5, 10, 10] ∧
    ((NewAggregator "m" 10 [Method.Sum] : Option (Aggregator ℤ)).bind
      (fun a => a.feed [(5, 1), (10, 2), (10, 4)])).map (fun a => sinkPoints a.sumMetric)
      = some (some [(10, 3), (10, 4)]) ∧
    ¬ ([10, 10] : List Nat).Nodup := by
  refine ⟨by decide, by decide, by decide⟩

/-- C5 (amended): for a span above zero and a strictly increasing stream of `uint32`
timestamps fed to a fresh aggregator, whenever the run returns no sink holds two points of
the same timestamp; the run returns whenever no timestamp lies beyond the last boundary a
`uint32` holds. -/
theorem one_point_per_boundary {V : Type} [LinearOrderedRing V] (key : String) (spp : Int)
    (methods : List Method) (a0 : Aggregator V) (pts : List (Nat × V))
    (h0 : NewAggregator key spp methods = some a0) (hs : 0 < a0.span)
    (hlt : ∀ p ∈ pts, p.1 < u32Size)
    (hmono : (pts.map Prod.fst).Pairwise (· < ·)) :
    (∀ a, a0.feed pts = some a →
      (sinkTimestamps a.minMetric).Nodup ∧ (sinkTimestamps a.maxMetric).Nodup ∧
      (sinkTimestamps a.sumMetric).Nodup ∧ (sinkTimestamps a.cntMetric).Nodup ∧
      (sinkTimestamps a.lstMetric).Nodup) ∧
    ((∀ p ∈ pts, p.1 ≤ lastBoundary a0.span) → ∃ a, a0.feed pts = some a) := by
  have hf := NewAggregator_fresh key spp methods a0 h0
  have hs2 := NewAggregator_span_lt key spp methods a0 h0
  refine ⟨?_, fun hfit => feed_isSome pts a0 (by omega) hs2 hfit
    (hmono.imp (fun hab => Nat.le_of_lt hab)) (fun _ _ => by rw [hf.1]; exact Nat.zero_le _)⟩
  intro a h
  have hinc := flushes_increasing pts a0 a hf hs hs2 h hlt hmono
  have hn : (a.flushLog.map Prod.fst).Nodup := hinc.imp (fun hab => Nat.ne_of_lt hab)
  obtain ⟨l1, l2, l3, l4, l5⟩ := SinksFollowLog_feed pts a0 a h (SinksFollowLog_of_fresh a0 hf)
  exact ⟨sinkTimestamps_of_follows _ _ _ l1 hn, sinkTimestamps_of_follows _ _ _ l2 hn,
    sinkTimestamps_of_follows _ _ _ l3 hn, sinkTimestamps_of_follows _ _ _ l4 hn,
    sinkTimestamps_of_follows _ _ _ l5 hn⟩

/-- C5 (witness): the scenario, whose timestamps 5, 9, 10, 15 increase strictly. -/
theorem one_point_per_boundary_witness :
    sinkTimestamps demoFinal.sumMetric = [10] ∧
    ((sinkTimestamps demoFinal.minMetric).Nodup ∧ (sinkTimestamps demoFinal.maxMetric).Nodup ∧
      (sinkTimestamps demoFinal.sumMetric).Nodup ∧ (sinkTimestamps demoFinal.cntMetric).Nodup ∧
      (sinkTimestamps demoFinal.lstMetric).Nodup) :=
  ⟨by decide,
    (one_point_per_boundary "m" 10 [Method.Avg] demoFresh demoStream (by decide) (by decide)
      (by decide) (by decide)).1 demoFinal (by decide)⟩

/-! ## C6: points that lie exactly on the boundaries -/

section OnBoundary

variable {V : Type} [LinearOrderedRing V]

theorem AggBoundary_multiple (k span : Nat) (hs : 0 < span) (hfit : (k + 1) * span < u32Size) :
    AggBoundary ((k + 1) * span) span = (k + 1) * span := by
  have hpos : 0 < (k + 1) * span := Nat.mul_pos (Nat.succ_pos k) hs
  have hs2 : span < u32Size := by
    have : span ≤ (k + 1) * span := Nat.le_mul_of_pos_left span (Nat.succ_pos k)
    omega
  have hle : (k + 1) * span ≤ lastBoundary span :=
    (le_lastBoundary_iff _ span hs).2 ⟨_, Dvd.intro_left _ rfl, Nat.le_refl _, hfit⟩
  rw [AggBoundary_fit _ span hs hs2 hpos hle]
  exact isBoundaryOf_unique _ span _ _ (nextMultiple_isBoundary _ span hs hpos)
    ⟨Dvd.intro_left _ rfl, Nat.le_refl _, fun m _ hm => hm⟩

theorem sum_sink_of_log (pts : List (Nat × V)) (a0 a : Aggregator V) (hf : IsFresh a0)
    (h : a0.feed pts = some a) (hsum : a0.sumMetric.isSome) :
    sinkPoints a.sumMetric = some (a.flushLog.map (fun e => (e.1, e.2.Sum))) := by
  have hl := SinksFollowLog_feed pts a0 a h (SinksFollowLog_of_fresh a0 hf)
  obtain ⟨m, hm⟩ := sink_isSome_of_sameSinks a0.sumMetric a.sumMetric
    (SameSinks_feed pts a0 a h).2.2.1 hsum
  rw [hm]
  show some m.points = _
  rw [hl.2.2.1 m hm]

/-- The state after the points `(span, v)`, ..., `((n+1)*span, v)`: the first `n` windows
are flushed, the last point is pending. -/
theorem feed_boundary_points (a0 : Aggregator V) (v : V) (hf : IsFresh a0) (hs : 0 < a0.span)
    (n : Nat) (hfit : (n + 1) * a0.span < u32Size) :
    ∃ a, a0.feed ((List.range (n + 1)).map (fun k => ((k + 1) * a0.span, v))) = some a ∧
      a.span = a0.span ∧ a.currentBoundary = (n + 1) * a0.span ∧
      a.agg = NewAggregation.Add v ∧
      a.flushLog = (List.range n).map (fun k => ((k + 1) * a0.span, NewAggregation.Add v)) := by
  have hone : (NewAggregation.Add v : Aggregation V).Cnt ≠ 0 := by
    show (0 : V) + 1 ≠ 0
    simp
  induction n with
  | zero =>
    have hb := AggBoundary_multiple 0 a0.span hs hfit
    simp only [Nat.zero_add, Nat.one_mul] at hb
    obtain ⟨a, ha⟩ := Add_isSome a0 a0.span v (by omega) (by rw [hb, hf.1]; exact Nat.zero_le _)
    obtain ⟨es, ecb, hcase⟩ := Add_fields a0 a a0.span v ha
    rw [hb, hf.1] at hcase
    refine ⟨a, by simp [Aggregator.feed, ha], es, by rw [ecb, hb]; simp, ?_, ?_⟩
    · rcases hcase with h1 | h1 | h1 | h1
      · omega
      · omega
      · exact absurd (by rw [hf.2.1]; rfl) h1.2.1
      · rw [h1.2.2.2, hf.2.1]
    · rcases hcase with h1 | h1 | h1 | h1
      · omega
      · omega
      · exact absurd (by rw [hf.2.1]; rfl) h1.2.1
      · rw [h1.2.2.1, hf.2.2.1]; rfl
  | succ n ih =>
    have hlt : (n + 1) * a0.span < (n + 1 + 1) * a0.span := by
      rw [Nat.add_mul (n + 1) 1]; omega
    obtain ⟨a, ha, es, ecb, eagg, elog⟩ := ih (by omega)
    have hb := AggBoundary_multiple (n + 1) a0.span hs hfit
    obtain ⟨a2, ha2⟩ := Add_isSome a ((n + 1 + 1) * a0.span) v (by omega)
      (by rw [es, hb, ecb]; omega)
    obtain ⟨es2, ecb2, hcase⟩ := Add_fields a a2 ((n + 1 + 1) * a0.span) v ha2
    rw [es, hb, ecb] at hcase
    rw [es] at es2 ecb2
    refine ⟨a2, ?_, es2, by rw [ecb2, hb], ?_, ?_⟩
    · rw [List.range_succ, List.map_append, feed_append, ha]
      simp [Aggregator.feed, ha2]
    · rcases hcase with h1 | h1 | h1 | h1
      · omega
      · omega
      · exact h1.2.2.2
      · exact absurd (by rw [eagg] at h1; exact h1.2.1) hone
    · rcases hcase with h1 | h1 | h1 | h1
      · omega
      · omega
      · rw [h1.2.2.1, elog, eagg, List.range_succ, List.map_append]
        rfl
      · exact absurd (by rw [eagg] at h1; exact h1.2.1) hone

end OnBoundary

/-- C6 (counterexample): span 10, value 7, the three points of timestamps 10, 20, 30 fed to
a fresh aggregator with a sum sink. After the three points the sum sink holds `(10,7)` and
`(20,7)` only: the point `(30,7)` has not been emitted. -/
theorem last_boundary_point_not_emitted :
    ((NewAggregator "m" 10 [Method.Sum] : Option (Aggregator ℤ)).bind
      (fun a => a.feed [(10, 7), (20, 7), (30, 7)])).map (fun a => sinkPoints a.sumMetric)
      = some (some [(10, 7), (20, 7)]) ∧
    ((NewAggregator "m" 10 [Method.Sum] : Option (Aggregator ℤ)).bind
      (fun a => a.feed [(10, 7), (20, 7), (30, 7)])).map (fun a => sinkPoints a.sumMetric)
      ≠ some (some [(10, 7), (20, 7), (30, 7)]) := by
  refine ⟨by decide, by decide⟩

/-- C6 (amended): for a span above zero, a value `v` and `n ≥ 1` with `n * span` a `uint32`,
feeding a fresh aggregator that has a sum sink the points `(span, v)`, ..., `(n*span, v)`
returns, and the sum sink has then received exactly `(k*span, v)` for `k = 1..n-1`, in that
order; the point of the window `n` is held in the accumulator (sum `v`, count 1, current
boundary `n*span`); and one more point, of any value and of any timestamp above `n*span`
and at or below the largest multiple of the span a `uint32` holds, is accepted and leaves
the sum sink with exactly `(k*span, v)` for `k = 1..n`, in that order. -/
theorem boundary_points_emitted_by_next {V : Type} [LinearOrderedRing V] (key : String)
    (spp : Int) (methods : List Method) (a0 : Aggregator V) (v : V) (n : Nat)
    (h0 : NewAggregator key spp methods = some a0) (hs : 0 < a0.span)
    (hsum : Method.Sum ∈ methods ∨ Method.Avg ∈ methods) (hn : 1 ≤ n)
    (hfit : n * a0.span < u32Size) :
    ∃ a, a0.feed ((List.range n).map (fun k => ((k + 1) * a0.span, v))) = some a ∧
      sinkPoints a.sumMetric =
        some ((List.range (n - 1)).map (fun k => ((k + 1) * a0.span, v))) ∧
      a.currentBoundary = n * a0.span ∧ a.agg.Sum = v ∧ a.agg.Cnt = 1 ∧
      ∀ ts w, n * a0.span < ts → ts ≤ lastBoundary a0.span →
        ∃ a2, a.Add ts w = some a2 ∧
          sinkPoints a2.sumMetric =
            some ((List.range n).map (fun k => ((k + 1) * a0.span, v))) := by
  have hf := NewAggregator_fresh key spp methods a0 h0
  have hs2 := NewAggregator_span_lt key spp methods a0 h0
  obtain ⟨_, _, _, _, _, _, s1, _⟩ := NewAggregator_spec key spp methods a0 h0
  have hsome : a0.sumMetric.isSome := by
    rw [s1]
    rcases hsum with h | h <;> simp [expectedSink, h]
  obtain ⟨m, rfl⟩ : ∃ m, n = m + 1 := ⟨n - 1, by omega⟩
  obtain ⟨a, ha, es, ecb, eagg, elog⟩ := feed_boundary_points a0 v hf hs m hfit
  have hsumv : (NewAggregation.Add v : Aggregation V).Sum = v := by
    show (0 : V) + v = v
    simp
  refine ⟨a, ha, ?_, ecb, by rw [eagg, hsumv], by rw [eagg]; show (0 : V) + 1 = 1; simp, ?_⟩
  · rw [sum_sink_of_log _ a0 a hf ha hsome, elog, List.map_map, Nat.add_sub_cancel]
    congr 1
    apply List.map_congr_left
    intro k _
    simp [hsumv]
  · intro ts w hgt hle
    have hw := window_of_fit ts a0.span hs hs2 (by omega) hle
    obtain ⟨a2, ha2⟩ := Add_isSome a ts w (by omega) (by rw [es, ecb]; omega)
    obtain ⟨_, _, hcase⟩ := Add_fields a a2 ts w ha2
    rw [es, ecb] at hcase
    have hfeed : a0.feed ((List.range (m + 1)).map (fun k => ((k + 1) * a0.span, v)) ++
        [(ts, w)]) = some a2 := by
      rw [feed_append, ha]
      simp [Aggregator.feed, ha2]
    refine ⟨a2, ha2, ?_⟩
    rw [sum_sink_of_log _ a0 a2 hf hfeed hsome]
    have hone : (NewAggregation.Add v : Aggregation V).Cnt ≠ 0 := by
      show (0 : V) + 1 ≠ 0
      simp
    rcases hcase with h1 | h1 | h1 | h1
    · omega
    · omega
    · rw [h1.2.2.1, elog, eagg, @List.range_succ m, List.map_append, List.map_append,
        List.map_map]
      simp [hsumv, Function.comp_def]
    · exact absurd (by rw [eagg] at h1; exact h1.2.1) hone

/-- C6 (witness): span 10, value 7, `n = 3`. -/
theorem boundary_points_emitted_by_next_witness :
    (demoFresh.feed [(10, 7), (20, 7), (30, 7)]).map (fun a => sinkPoints a.sumMetric) =
      some (some [(10, 7), (20, 7)]) ∧
    ∃ a, demoFresh.feed ((List.range 3).map (fun k => ((k + 1) * demoFresh.span, (7 : ℤ)))) =
        some a ∧
      sinkPoints a.sumMetric =
        some ((List.range (3 - 1)).map (fun k => ((k + 1) * demoFresh.span, (7 : ℤ)))) ∧
      a.currentBoundary = 3 * demoFresh.span ∧ a.agg.Sum = 7 ∧ a.agg.Cnt = 1 ∧
      ∀ ts w, 3 * demoFresh.span < ts → ts ≤ lastBoundary demoFresh.span →
        ∃ a2, a.Add ts w = some a2 ∧
          sinkPoints a2.sumMetric =
            some ((List.range 3).map (fun k => ((k + 1) * demoFresh.span, (7 : ℤ)))) :=
  ⟨by decide,
    boundary_points_emitted_by_next "m" 10 [Method.Avg] demoFresh 7 3 (by decide) (by decide)
      (by decide) (by decide) (by decide)⟩

/-! ## C7: the sinks `NewAggregator` creates -/

section CreatedSinks

variable {V : Type} [LinearOrderedRing V]

omit [LinearOrderedRing V] in
theorem expectedSink_isSome (key : String) (span : Nat) (fn : String) (b : Bool) :
    (expectedSink key span fn b : Option (AggMetric V)).isSome = b := by
  cases b <;> rfl

omit [LinearOrderedRing V] in
theorem expectedSink_key (key : String) (span : Nat) (fn : String) (b : Bool) (k : SeriesKey) :
    (expectedSink key span fn b : Option (AggMetric V)).map (fun x => x.key) = some k ↔
      (b = true ∧ k = ⟨key, fn, span⟩) := by
  cases b
  · simp [expectedSink]
  · simp [expectedSink, NewAggMetric, eq_comm]

omit [LinearOrderedRing V] in
theorem sinkCount_of_follows (m0 m : Option (AggMetric V)) (log : List (Nat × Aggregation V))
    (f : Aggregation V → V) (hk : m.map (fun x => x.key) = m0.map (fun x => x.key))
    (hl : sinkFollows m log f) : sinkCount m = m0.map (fun _ => log.length) := by
  cases m with
  | none =>
    cases m0 with
    | none => rfl
    | some y => simp at hk
  | some x =>
    cases m0 with
    | none => simp at hk
    | some y =>
      show some x.points.length = some log.length
      rw [hl x rfl, List.length_map]

omit [LinearOrderedRing V] in
theorem sinkCount_Add (m : Option (AggMetric V)) (ts : Nat) (val : V) :
    sinkCount (m.map (fun x => x.Add ts val)) = (sinkCount m).map (fun n => n + 1) := by
  cases m with
  | none => rfl
  | some x => simp [sinkCount, AggMetric.Add]

end CreatedSinks

/-- C7: for a non-empty list of requested methods, `NewAggregator` returns an aggregator
whose sum sink exists iff `Avg` or `Sum` is requested, whose count sink exists iff `Avg` is,
and whose min, max and last sinks exist iff `Min`, `Max`, `Lst` are; no key is created twice
and the keys created are those of the sinks that exist; in every state reached from it each
sink that was created holds one point per flush made so far, a sink that was not created
stays nil, and a flush appends exactly one point to each sink that exists. -/
theorem newAggregator_sinks {V : Type} [LinearOrderedRing V] (key : String) (spp : Int)
    (methods : List Method) (hne : methods ≠ []) :
    ∃ a0 : Aggregator V, NewAggregator key spp methods = some a0 ∧
      (a0.sumMetric.isSome = true ↔ Method.Avg ∈ methods ∨ Method.Sum ∈ methods) ∧
      (a0.cntMetric.isSome = true ↔ Method.Avg ∈ methods) ∧
      (a0.minMetric.isSome = true ↔ Method.Min ∈ methods) ∧
      (a0.maxMetric.isSome = true ↔ Method.Max ∈ methods) ∧
      (a0.lstMetric.isSome = true ↔ Method.Lst ∈ methods) ∧
      a0.created.Nodup ∧
      (∀ k, k ∈ a0.created ↔
        (a0.minMetric.map (fun x => x.key) = some k ∨
         a0.maxMetric.map (fun x => x.key) = some k ∨
         a0.sumMetric.map (fun x => x.key) = some k ∨
         a0.cntMetric.map (fun x => x.key) = some k ∨
         a0.lstMetric.map (fun x => x.key) = some k)) ∧
      ∀ pts a, a0.feed pts = some a →
        (sinkCount a.minMetric = a0.minMetric.map (fun _ => a.flushLog.length) ∧
         sinkCount a.maxMetric = a0.maxMetric.map (fun _ => a.flushLog.length) ∧
         sinkCount a.sumMetric = a0.sumMetric.map (fun _ => a.flushLog.length) ∧
         sinkCount a.cntMetric = a0.cntMetric.map (fun _ => a.flushLog.length) ∧
         sinkCount a.lstMetric = a0.lstMetric.map (fun _ => a.flushLog.length)) ∧
        (sinkCount a.flush.minMetric = (sinkCount a.minMetric).map (fun n => n + 1) ∧
         sinkCount a.flush.maxMetric = (sinkCount a.maxMetric).map (fun n => n + 1) ∧
         sinkCount a.flush.sumMetric = (sinkCount a.sumMetric).map (fun n => n + 1) ∧
         sinkCount a.flush.cntMetric = (sinkCount a.cntMetric).map (fun n => n + 1) ∧
         sinkCount a.flush.lstMetric = (sinkCount a.lstMetric).map (fun n => n + 1)) := by
  have hlen : ¬ methods.length = 0 := fun e => hne (List.length_eq_zero.1 e)
  obtain ⟨a0, h0⟩ : ∃ a0 : Aggregator V, NewAggregator key spp methods = some a0 := by
    unfold NewAggregator
    simp only [hlen, if_false]
    exact ⟨_, rfl⟩
  have hf := NewAggregator_fresh key spp methods a0 h0
  obtain ⟨_, _, _, _, _, _, s1, s2, s3, s4, s5, hnd, hmem⟩ :=
    NewAggregator_spec key spp methods a0 h0
  refine ⟨a0, h0, ?_, ?_, ?_, ?_, ?_, hnd, ?_, ?_⟩
  · rw [s1, expectedSink_isSome]; simp
  · rw [s2, expectedSink_isSome]; simp
  · rw [s5, expectedSink_isSome]; simp
  · rw [s4, expectedSink_isSome]; simp
  · rw [s3, expectedSink_isSome]; simp
  · intro k
    rw [hmem k, s1, s2, s3, s4, s5, expectedSink_key, expectedSink_key, expectedSink_key,
      expectedSink_key, expectedSink_key]
    unfold expectedKeys
    simp only [List.mem_append, decide_eq_true_eq]
    constructor
    · rintro ((((h | h) | h) | h) | h) <;> split_ifs at h with hc <;>
        simp only [List.mem_singleton, List.not_mem_nil] at h <;> tauto
    · rintro (⟨hc, h⟩ | ⟨hc, h⟩ | ⟨hc, h⟩ | ⟨hc, h⟩ | ⟨hc, h⟩) <;> simp [hc, h]
  · intro pts a h
    obtain ⟨l1, l2, l3, l4, l5⟩ :=
      SinksFollowLog_feed pts a0 a h (SinksFollowLog_of_fresh a0 hf)
    obtain ⟨k1, k2, k3, k4, k5⟩ := SameSinks_feed pts a0 a h
    exact ⟨⟨sinkCount_of_follows _ _ _ _ k1 l1, sinkCount_of_follows _ _ _ _ k2 l2,
      sinkCount_of_follows _ _ _ _ k3 l3, sinkCount_of_follows _ _ _ _ k4 l4,
      sinkCount_of_follows _ _ _ _ k5 l5⟩,
      ⟨sinkCount_Add _ _ _, sinkCount_Add _ _ _, sinkCount_Add _ _ _, sinkCount_Add _ _ _,
        sinkCount_Add _ _ _⟩⟩

/-- C7 (witness): requesting `Avg` and `Sum` creates one sum series and one count series. -/
theorem newAggregator_sinks_witness :
    (NewAggregator "m" 10 [Method.Avg, Method.Sum] : Option (Aggregator ℤ)) = some demoFresh ∧
    demoFresh.created.count ⟨"m", "sum", 10⟩ = 1 ∧
    ∃ a0 : Aggregator ℤ, NewAggregator "m" 10 [Method.Avg, Method.Sum] = some a0 ∧
      (a0.sumMetric.isSome = true ↔
        Method.Avg ∈ [Method.Avg, Method.Sum] ∨ Method.Sum ∈ [Method.Avg, Method.Sum]) ∧
      (a0.cntMetric.isSome = true ↔ Method.Avg ∈ [Method.Avg, Method.Sum]) ∧
      (a0.minMetric.isSome = true ↔ Method.Min ∈ [Method.Avg, Method.Sum]) ∧
      (a0.maxMetric.isSome = true ↔ Method.Max ∈ [Method.Avg, Method.Sum]) ∧
      (a0.lstMetric.isSome = true ↔ Method.Lst ∈ [Method.Avg, Method.Sum]) ∧
      a0.created.Nodup ∧
      (∀ k, k ∈ a0.created ↔
        (a0.minMetric.map (fun x => x.key) = some k ∨
         a0.maxMetric.map (fun x => x.key) = some k ∨
         a0.sumMetric.map (fun x => x.key) = some k ∨
         a0.cntMetric.map (fun x => x.key) = some k ∨
         a0.lstMetric.map (fun x => x.key) = some k)) ∧
      ∀ pts a, a0.feed pts = some a →
        (sinkCount a.minMetric = a0.minMetric.map (fun _ => a.flushLog.length) ∧
         sinkCount a.maxMetric = a0.maxMetric.map (fun _ => a.flushLog.length) ∧
         sinkCount a.sumMetric = a0.sumMetric.map (fun _ => a.flushLog.length) ∧
         sinkCount a.cntMetric = a0.cntMetric.map (fun _ => a.flushLog.length) ∧
         sinkCount a.lstMetric = a0.lstMetric.map (fun _ => a.flushLog.length)) ∧
        (sinkCount a.flush.minMetric = (sinkCount a.minMetric).map (fun n => n + 1) ∧
         sinkCount a.flush.maxMetric = (sinkCount a.maxMetric).map (fun n => n + 1) ∧
         sinkCount a.flush.sumMetric = (sinkCount a.sumMetric).map (fun n => n + 1) ∧
         sinkCount a.flush.cntMetric = (sinkCount a.cntMetric).map (fun n => n + 1) ∧
         sinkCount a.flush.lstMetric = (sinkCount a.lstMetric).map (fun n => n + 1)) :=
  ⟨by decide, by decide, newAggregator_sinks "m" 10 [Method.Avg, Method.Sum] (by decide)⟩

/-! ## The fan-out of a cache delete -/

section FanOut

variable {C : Type}

/-- Every call of `ccacheDeleteRemote` makes exactly one call of `Post`: to the peer it is
given, with the request it is given. -/
theorem ccacheDeleteRemote_calls (env : Env C) (req : CCacheDelete) (peer : NodeIf) :
    (ccacheDeleteRemote env req peer).2 = [{ peer := peer, req := req }] := by
  unfold ccacheDeleteRemote callPost
  cases peer.Post req with
  | none => rfl
  | some buf =>
    simp only []
    cases hd : env.Unmarshal buf with
    | mk r b => cases b <;> rfl

theorem propagate_fold (env : Env C) (req1 : CCacheDelete) (order : List NodeIf) :
    ∀ acc : List (String × CCacheDeleteResp) × List PostCall,
      order.foldl
        (fun (acc : List (String × CCacheDeleteResp) × List PostCall) peer =>
          (mapSet acc.1 peer.GetName (ccacheDeleteRemote env req1 peer).1,
            acc.2 ++ (ccacheDeleteRemote env req1 peer).2)) acc =
      (order.foldl
          (fun m peer => mapSet m peer.GetName (ccacheDeleteRemote env req1 peer).1) acc.1,
        acc.2 ++ order.map (fun peer => { peer := peer, req := req1 })) := by
  induction order with
  | nil => intro acc; simp
  | cons p r ih =>
    intro acc
    simp only [List.foldl_cons, List.map_cons]
    rw [ih, ccacheDeleteRemote_calls]
    simp

/-- The request `ccacheDeletePropagate` forwards, the map it returns and the calls of `Post`
it makes, in terms of the order in which the goroutines run. -/
theorem ccacheDeletePropagate_eq (env : Env C) (req : CCacheDelete) :
    ccacheDeletePropagate env req =
      ({ req with Propagate := false },
        (env.sched (spawnedPeers env)).foldl
          (fun m peer => mapSet m peer.GetName
            (ccacheDeleteRemote env { req with Propagate := false } peer).1) [],
        (env.sched (spawnedPeers env)).map
          (fun peer => { peer := peer, req := { req with Propagate := false } })) := by
  unfold ccacheDeletePropagate
  simp only [propagate_fold, List.nil_append]

theorem ccacheDelete_posts_eq (env : Env C) (cache : C) (req : CCacheDelete) :
    (ccacheDelete env cache req).posts =
      if req.Propagate then
        (env.sched (spawnedPeers env)).map
          (fun peer => { peer := peer, req := { req with Propagate := false } })
      else [] := by
  unfold ccacheDelete
  by_cases hp : req.Propagate = true
  · simp only [hp, if_true, ccacheDeletePropagate_eq]
    split <;> rfl
  · simp only [hp, if_false]
    split <;> simp

end FanOut

/-- C8: the calls of `Post` made by `ccacheDelete`, whatever order the goroutines run in: if
`request.propagate` is true, one per member that is not local, each with the patterns and
the org id of the request and `propagate = false`; if it is false, none. So no forwarded
request has `propagate = true`, and no local member is called. -/
theorem ccacheDelete_peer_calls {C : Type} (env : Env C) (cache : C) (req : CCacheDelete)
    (hs : (env.sched (spawnedPeers env)).Perm (spawnedPeers env)) :
    (req.Propagate = true →
      (ccacheDelete env cache req).posts.Perm
        ((env.MemberList.filter (fun peer => !peer.IsLocal)).map
          (fun peer => { peer := peer,
                         req := { Patterns := req.Patterns, OrgId := req.OrgId,
                                  Propagate := false } }))) ∧
    (req.Propagate = false → (ccacheDelete env cache req).posts = []) ∧
    (∀ c ∈ (ccacheDelete env cache req).posts,
      c.req.Propagate = false ∧ c.req.Patterns = req.Patterns ∧ c.req.OrgId = req.OrgId ∧
      c.peer.IsLocal = false ∧ c.peer ∈ env.MemberList) := by
  rw [ccacheDelete_posts_eq]
  refine ⟨?_, ?_, ?_⟩
  · intro hp
    simp only [hp, if_true]
    exact hs.map _
  · intro hp
    simp [hp]
  · intro c hc
    by_cases hp : req.Propagate = true
    · simp only [hp, if_true, List.mem_map] at hc
      obtain ⟨peer, hpeer, rfl⟩ := hc
      have hmem := (hs.mem_iff).1 hpeer
      unfold spawnedPeers at hmem
      rw [List.mem_filter] at hmem
      exact ⟨rfl, rfl, rfl, by simpa using hmem.2, hmem.1⟩
    · simp [hp] at hc

/-- C8 (witness): the cluster of the examples; the three peers are called, in the order in
which the goroutines ran, each with `propagate = false`, and the local node is not. -/
theorem ccacheDelete_peer_calls_witness :
    (ccacheDelete demoEnv ["a.b", "a.c", "z"] demoReq).posts.map
        (fun c => (c.peer.GetName, c.req.Propagate)) =
      [("peer3", false), ("peer2", false), ("peer1", false)] ∧
    ((demoReq.Propagate = true →
      (ccacheDelete demoEnv ["a.b", "a.c", "z"] demoReq).posts.Perm
        ((demoEnv.MemberList.filter (fun peer => !peer.IsLocal)).map
          (fun peer => { peer := peer,
                         req := { Patterns := demoReq.Patterns, OrgId := demoReq.OrgId,
                                  Propagate := false } }))) ∧
    (demoReq.Propagate = false →
      (ccacheDelete demoEnv ["a.b", "a.c", "z"] demoReq).posts = []) ∧
    (∀ c ∈ (ccacheDelete demoEnv ["a.b", "a.c", "z"] demoReq).posts,
      c.req.Propagate = false ∧ c.req.Patterns = demoReq.Patterns ∧
      c.req.OrgId = demoReq.OrgId ∧ c.peer.IsLocal = false ∧ c.peer ∈ demoEnv.MemberList)) :=
  ⟨by decide,
    ccacheDelete_peer_calls demoEnv ["a.b", "a.c", "z"] demoReq
      (List.reverse_perm (spawnedPeers demoEnv))⟩

/-! ## Maps and the results of the peers -/

section PeerResults

variable {C : Type}

theorem mapGet_mapSet_same {α : Type} (m : List (String × α)) (k : String) (v : α) :
    mapGet (mapSet m k v) k = some v := by
  simp [mapGet, mapSet]

theorem mapGet_mapSet_ne {α : Type} (m : List (String × α)) (k k2 : String) (v : α)
    (h : k2 ≠ k) : mapGet (mapSet m k v) k2 = mapGet m k2 := by
  unfold mapGet mapSet
  have hk : ¬ k = k2 := fun e => h e.symm
  simp only [List.find?_cons, hk, decide_False]
  congr 1
  rw [List.find?_filter]
  congr 1
  funext a
  by_cases ha : a.1 = k2
  · simp [ha, h]
  · simp [ha]

theorem mapGet_fold_not_mem (g : NodeIf → CCacheDeleteResp) (order : List NodeIf)
    (name : String) (h : name ∉ order.map (fun p => p.GetName)) :
    ∀ m0, mapGet (order.foldl (fun m p => mapSet m p.GetName (g p)) m0) name = mapGet m0 name := by
  induction order with
  | nil => intro m0; rfl
  | cons q r ih =>
    intro m0
    simp only [List.map_cons, List.mem_cons, not_or] at h
    simp only [List.foldl_cons]
    rw [ih h.2, mapGet_mapSet_ne _ _ _ _ h.1]

/-- With distinct names, the map built by the goroutines holds under the name of each peer
the result of that peer, in whatever order they ran. -/
theorem mapGet_fold (g : NodeIf → CCacheDeleteResp) (order : List NodeIf)
    (hn : (order.map (fun p => p.GetName)).Nodup) :
    ∀ m0 peer, peer ∈ order →
      mapGet (order.foldl (fun m p => mapSet m p.GetName (g p)) m0) peer.GetName =
        some (g peer) := by
  induction order with
  | nil => intro m0 peer hp; simp at hp
  | cons q r ih =>
    intro m0 peer hp
    simp only [List.map_cons, List.nodup_cons] at hn
    simp only [List.foldl_cons]
    by_cases hr : peer ∈ r
    · exact ih hn.2 _ peer hr
    · have hq : peer = q := by
        rcases List.mem_cons.1 hp with h | h
        · exact h
        · exact absurd h hr
      subst hq
      rw [mapGet_fold_not_mem g r _ hn.1, mapGet_mapSet_same]

theorem wrapInt_idem (x : Int) : wrapInt (wrapInt x) = wrapInt x := by
  unfold wrapInt; omega

theorem wrapInt_add (x y : Int) : wrapInt (wrapInt x + y) = wrapInt (x + y) := by
  unfold wrapInt; omega

theorem wrapInt_of_range (x : Int) (h1 : -9223372036854775808 ≤ x)
    (h2 : x < 9223372036854775808) : wrapInt x = x := by
  unfold wrapInt; omega

theorem delResults_append (dm : C → String → C × CCDelMetricResult) (l1 l2 : List String) :
    ∀ c, delResults dm c (l1 ++ l2) = delResults dm c l1 ++ delResults dm (delCache dm c l1) l2 := by
  induction l1 with
  | nil => intro c; rfl
  | cons i r ih => intro c; simp [delResults, delCache, ih]

theorem delCache_append (dm : C → String → C × CCDelMetricResult) (l1 l2 : List String) :
    ∀ c, delCache dm c (l1 ++ l2) = delCache dm (delCache dm c l1) l2 := by
  induction l1 with
  | nil => intro c; rfl
  | cons i r ih => intro c; simp [delCache, ih]

/-- The inner loops: one `DelMetric` per id, in order; the counts of the response grow by
the sums of the counts returned; its other fields are kept. -/
theorem delDefs_spec (env : Env C) (ids : List String) :
    ∀ st : LocalState C, wrapInt st.res.DeletedSeries = st.res.DeletedSeries →
      wrapInt st.res.DeletedArchives = st.res.DeletedArchives →
      (delDefs env st ids).cache = delCache env.DelMetric st.cache ids ∧
      (delDefs env st ids).dels = st.dels ++ ids ∧
      (delDefs env st ids).res.Errors = st.res.Errors ∧
      (delDefs env st ids).res.Peers = st.res.Peers ∧
      (delDefs env st ids).res.DeletedSeries =
        wrapInt (st.res.DeletedSeries + sumSeries (delResults env.DelMetric st.cache ids)) ∧
      (delDefs env st ids).res.DeletedArchives =
        wrapInt (st.res.DeletedArchives + sumArchives (delResults env.DelMetric st.cache ids)) := by
  induction ids with
  | nil =>
    intro st h1 h2
    simp [delDefs, delCache, delResults, sumSeries, sumArchives, h1, h2]
  | cons i r ih =>
    intro st h1 h2
    have key := ih
      { cache := (env.DelMetric st.cache i).1,
        res := { st.res with
          DeletedSeries := wrapInt (st.res.DeletedSeries + (env.DelMetric st.cache i).2.Series),
          DeletedArchives :=
            wrapInt (st.res.DeletedArchives + (env.DelMetric st.cache i).2.Archives) },
        dels := st.dels ++ [i] }
      (wrapInt_idem _) (wrapInt_idem _)
    obtain ⟨k1, k2, k3, k4, k5, k6⟩ := key
    unfold delDefs at k1 k2 k3 k4 k5 k6 ⊢
    simp only [List.foldl_cons]
    refine ⟨k1, by rw [k2]; simp, k3, k4, ?_, ?_⟩
    · rw [k5]
      simp only [delResults, sumSeries, List.map_cons, List.sum_cons]
      rw [wrapInt_add, Int.add_assoc]
    · rw [k6]
      simp only [delResults, sumArchives, List.map_cons, List.sum_cons]
      rw [wrapInt_add, Int.add_assoc]

theorem sumSeries_append (l1 l2 : List CCDelMetricResult) :
    sumSeries (l1 ++ l2) = sumSeries l1 + sumSeries l2 := by
  simp [sumSeries]

theorem sumArchives_append (l1 l2 : List CCDelMetricResult) :
    sumArchives (l1 ++ l2) = sumArchives l1 + sumArchives l2 := by
  simp [sumArchives]

/-- The loop over the patterns: `DelMetric` is called for the matched ids, in order; the
loop is left with the error of the first failing `Find`. -/
theorem deletePatterns_spec (env : Env C) (orgId : Int) (pats : List String) :
    ∀ st : LocalState C, wrapInt st.res.DeletedSeries = st.res.DeletedSeries →
      wrapInt st.res.DeletedArchives = st.res.DeletedArchives →
      (deletePatterns env orgId st pats).2 = findError env.Find orgId pats ∧
      (deletePatterns env orgId st pats).1.cache =
        delCache env.DelMetric st.cache (matchedIds env.Find orgId pats) ∧
      (deletePatterns env orgId st pats).1.dels = st.dels ++ matchedIds env.Find orgId pats ∧
      (deletePatterns env orgId st pats).1.res.Errors = st.res.Errors ∧
      (deletePatterns env orgId st pats).1.res.Peers = st.res.Peers ∧
      (deletePatterns env orgId st pats).1.res.DeletedSeries =
        wrapInt (st.res.DeletedSeries +
          sumSeries (delResults env.DelMetric st.cache (matchedIds env.Find orgId pats))) ∧
      (deletePatterns env orgId st pats).1.res.DeletedArchives =
        wrapInt (st.res.DeletedArchives +
          sumArchives (delResults env.DelMetric st.cache (matchedIds env.Find orgId pats))) := by
  induction pats with
  | nil =>
    intro st h1 h2
    simp [deletePatterns, findError, matchedIds, delCache, delResults, sumSeries, sumArchives,
      h1, h2]
  | cons p r ih =>
    intro st h1 h2
    unfold deletePatterns findError matchedIds
    cases hf : env.Find orgId p with
    | error e =>
      simp [delCache, delResults, sumSeries, sumArchives, h1, h2]
    | ok nodes =>
      simp only []
      obtain ⟨d1, d2, d3, d4, d5, d6⟩ :=
        delDefs_spec env (nodes.flatMap (fun n => n.Defs)) st h1 h2
      obtain ⟨k0, k1, k2, k3, k4, k5, k6⟩ :=
        ih (delDefs env st (nodes.flatMap (fun n => n.Defs)))
          (by rw [d5]; exact wrapInt_idem _) (by rw [d6]; exact wrapInt_idem _)
      refine ⟨k0, ?_, ?_, ?_, ?_, ?_, ?_⟩
      · rw [k1, d1, delCache_append]
      · rw [k2, d2, List.append_assoc]
      · rw [k3, d3]
      · rw [k4, d4]
      · rw [k5, d5, d1, delResults_append, sumSeries_append, wrapInt_add, Int.add_assoc]
      · rw [k6, d6, d1, delResults_append, sumArchives_append, wrapInt_add, Int.add_assoc]

end PeerResults

/-! ## The local part of a cache delete -/

section LocalPart

variable {C : Type}

/-- The result of `ccacheDelete` as one expression: the fan-out, if requested, then the
loop over the patterns from a zero response that carries the peer results. -/
theorem ccacheDelete_eq (env : Env C) (cache : C) (req : CCacheDelete) :
    ccacheDelete env cache req =
      match (deletePatterns env req.OrgId
          { cache := cache,
            res := { CCacheDeleteResp.zero with
              Peers := if req.Propagate then (ccacheDeletePropagate env req).2.1 else [] },
            dels := [] } req.Patterns) with
      | (st, some err) =>
        { resp := .error 400 err,
          posts := if req.Propagate then (ccacheDeletePropagate env req).2.2 else [],
          dels := st.dels, cache := st.cache }
      | (st, none) =>
        { resp := .json 200 st.res,
          posts := if req.Propagate then (ccacheDeletePropagate env req).2.2 else [],
          dels := st.dels, cache := st.cache } := by
  unfold ccacheDelete
  by_cases hp : req.Propagate = true
  · have e1 : (ccacheDeletePropagate env req).1.OrgId = req.OrgId := rfl
    have e2 : (ccacheDeletePropagate env req).1.Patterns = req.Patterns := rfl
    simp only [hp, if_true, e1, e2]
    generalize deletePatterns env req.OrgId
      { cache := cache,
        res := { CCacheDeleteResp.zero with Peers := (ccacheDeletePropagate env req).2.1 },
        dels := [] } req.Patterns = loc
    obtain ⟨st, err⟩ := loc
    cases err <;> rfl
  · have ez : ({ CCacheDeleteResp.zero with Peers := [] } : CCacheDeleteResp) =
        CCacheDeleteResp.zero := rfl
    simp only [hp, if_false, Bool.false_eq_true, ez]
    generalize deletePatterns env req.OrgId
      { cache := cache, res := CCacheDeleteResp.zero, dels := [] } req.Patterns = loc
    obtain ⟨st, err⟩ := loc
    cases err <;> rfl

/-- What `ccacheDelete` does locally and what it answers, in terms of the index, the cache
and the patterns of the request. -/
theorem ccacheDelete_local (env : Env C) (cache : C) (req : CCacheDelete) :
    (ccacheDelete env cache req).dels = matchedIds env.Find req.OrgId req.Patterns ∧
    (ccacheDelete env cache req).cache =
      delCache env.DelMetric cache (matchedIds env.Find req.OrgId req.Patterns) ∧
    (∀ e, findError env.Find req.OrgId req.Patterns = some e →
      (ccacheDelete env cache req).resp = .error 400 e) ∧
    (findError env.Find req.OrgId req.Patterns = none →
      ∃ res, (ccacheDelete env cache req).resp = .json 200 res ∧ res.Errors = 0 ∧
        res.DeletedSeries = wrapInt (sumSeries
          (delResults env.DelMetric cache (matchedIds env.Find req.OrgId req.Patterns))) ∧
        res.DeletedArchives = wrapInt (sumArchives
          (delResults env.DelMetric cache (matchedIds env.Find req.OrgId req.Patterns))) ∧
        res.Peers = if req.Propagate then (ccacheDeletePropagate env req).2.1 else []) := by
  have hw : wrapInt 0 = 0 := by decide
  obtain ⟨k0, k1, k2, k3, k4, k5, k6⟩ := deletePatterns_spec env req.OrgId req.Patterns
    { cache := cache,
      res := { CCacheDeleteResp.zero with
        Peers := if req.Propagate then (ccacheDeletePropagate env req).2.1 else [] },
      dels := [] } hw hw
  rw [ccacheDelete_eq]
  generalize deletePatterns env req.OrgId
    { cache := cache,
      res := { CCacheDeleteResp.zero with
        Peers := if req.Propagate then (ccacheDeletePropagate env req).2.1 else [] },
      dels := [] } req.Patterns = loc at k0 k1 k2 k3 k4 k5 k6
  obtain ⟨st, err⟩ := loc
  simp only at k0 k1 k2 k3 k4 k5 k6
  subst k0
  cases hfe : findError env.Find req.OrgId req.Patterns with
  | some e =>
    simp only []
    exact ⟨by rw [k2]; simp, k1, fun e2 he2 => by rw [Option.some.inj he2],
      fun h => by simp at h⟩
  | none =>
    simp only []
    refine ⟨by rw [k2]; simp, k1, fun e2 he2 => by simp at he2,
      fun _ => ⟨st.res, rfl, ?_, ?_, ?_, k4⟩⟩
    · rw [k3]; rfl
    · rw [k5]; simp [CCacheDeleteResp.zero]
    · rw [k6]; simp [CCacheDeleteResp.zero]

end LocalPart

section Independence

variable {C : Type}

/-- The local part of a cache delete depends on the index, the cache, the patterns and the
org id only: not on the peers, on their answers, on the decoder, on the order of the
goroutines or on `propagate`. -/
theorem ccacheDelete_local_independent (env env2 : Env C) (cache : C) (req req2 : CCacheDelete)
    (hF : env2.Find = env.Find) (hD : env2.DelMetric = env.DelMetric)
    (hP : req2.Patterns = req.Patterns) (hO : req2.OrgId = req.OrgId) :
    (ccacheDelete env2 cache req2).dels = (ccacheDelete env cache req).dels ∧
    (ccacheDelete env2 cache req2).cache = (ccacheDelete env cache req).cache ∧
    (ccacheDelete env2 cache req2).resp.code = (ccacheDelete env cache req).resp.code ∧
    (ccacheDelete env2 cache req2).resp.counts = (ccacheDelete env cache req).resp.counts := by
  obtain ⟨a1, a2, a3, a4⟩ := ccacheDelete_local env cache req
  obtain ⟨b1, b2, b3, b4⟩ := ccacheDelete_local env2 cache req2
  simp only [hF, hD, hP, hO] at b1 b2 b3 b4
  refine ⟨b1.trans a1.symm, b2.trans a2.symm, ?_, ?_⟩
  · cases hfe : findError env.Find req.OrgId req.Patterns with
    | some e => rw [a3 e hfe, b3 e hfe]
    | none =>
      obtain ⟨r1, e1, _⟩ := a4 hfe
      obtain ⟨r2, e2, _⟩ := b4 hfe
      rw [e1, e2]
      rfl
  · cases hfe : findError env.Find req.OrgId req.Patterns with
    | some e => rw [a3 e hfe, b3 e hfe]
    | none =>
      obtain ⟨r1, e1, _, s1, t1, _⟩ := a4 hfe
      obtain ⟨r2, e2, _, s2, t2, _⟩ := b4 hfe
      rw [e1, e2]
      show some (r2.DeletedSeries, r2.DeletedArchives) = some (r1.DeletedSeries, r1.DeletedArchives)
      rw [s1, s2, t1, t2]

theorem matchedIds_of_ok (find : Int → String → Except String (List Node)) (orgId : Int)
    (nodesOf : String → List Node) (pats : List String)
    (h : ∀ p ∈ pats, find orgId p = .ok (nodesOf p)) :
    matchedIds find orgId pats = pats.flatMap (fun p => (nodesOf p).flatMap (fun n => n.Defs)) ∧
    findError find orgId pats = none := by
  induction pats with
  | nil => exact ⟨rfl, rfl⟩
  | cons p r ih =>
    have hp := h p (List.mem_cons_self _ _)
    obtain ⟨i1, i2⟩ := ih (fun q hq => h q (List.mem_cons_of_mem _ hq))
    unfold matchedIds findError
    rw [hp]
    simp only [List.flatMap_cons]
    exact ⟨by rw [i1], i2⟩

/-- The result of one peer, by the outcome of its call. -/
theorem ccacheDeleteRemote_cases (env : Env C) (req : CCacheDelete) (peer : NodeIf) :
    (peer.Post req = none →
      (ccacheDeleteRemote env req peer).1.Errors = 1 ∧
      (ccacheDeleteRemote env req peer).1.DeletedSeries = 0 ∧
      (ccacheDeleteRemote env req peer).1.DeletedArchives = 0 ∧
      (ccacheDeleteRemote env req peer).1.Peers = []) ∧
    (∀ buf, peer.Post req = some buf → (env.Unmarshal buf).2 = false →
      (ccacheDeleteRemote env req peer).1 = (env.Unmarshal buf).1) ∧
    (∀ buf, peer.Post req = some buf → (env.Unmarshal buf).2 = true →
      (ccacheDeleteRemote env req peer).1.Errors =
        wrapInt ((env.Unmarshal buf).1.Errors + 1) ∧
      (ccacheDeleteRemote env req peer).1.DeletedSeries = (env.Unmarshal buf).1.DeletedSeries ∧
      (ccacheDeleteRemote env req peer).1.DeletedArchives =
        (env.Unmarshal buf).1.DeletedArchives ∧
      (ccacheDeleteRemote env req peer).1.Peers = (env.Unmarshal buf).1.Peers) := by
  unfold ccacheDeleteRemote callPost
  refine ⟨?_, ?_, ?_⟩
  · intro h
    simp only [h]
    exact ⟨by decide, rfl, rfl, rfl⟩
  · intro buf h hu
    simp only [h]
    cases hd : env.Unmarshal buf with
    | mk r b =>
      rw [hd] at hu
      simp only at hu
      subst hu
      rfl
  · intro buf h hu
    simp only [h]
    cases hd : env.Unmarshal buf with
    | mk r b =>
      rw [hd] at hu
      simp only at hu
      subst hu
      exact ⟨rfl, rfl, rfl, rfl⟩

end Independence

/-! ## C9: the results of the peers -/

/-- C9 (counterexample): the cluster of the examples with a `peer2` whose call returns a
body that `json.Unmarshal` rejects after it has stored `errors = 3` (a field of a wrong
type after a valid `errors` field). The body cannot be decoded, and the entry of `peer2`
has `errors == 4`, not 1. -/
theorem undecodable_body_errors_not_one :
    demoReq.Propagate = true ∧
    ((spawnedPeers demoEnvPartial).map (fun p => p.GetName)) = ["peer1", "peer2", "peer3"] ∧
    (demoEnvPartial.Unmarshal "partial").2 = true ∧
    (ccacheDelete demoEnvPartial ["a.b", "a.c", "z"] demoReq).resp.code = 200 ∧
    (mapGet (ccacheDelete demoEnvPartial ["a.b", "a.c", "z"] demoReq).resp.peers "peer2").map
      (fun r => r.Errors) = some 4 := by
  refine ⟨by decide, by decide, by decide, by decide, by decide⟩

/-- C9 (amended): for a propagated delete over a member list whose non-local peers have
distinct names, in whatever order the goroutines run: a peer whose `Post` returns an error
gets the entry `{errors: 1}` (all else zero); a peer whose body is decoded gets exactly the
decoded response; a peer whose body cannot be decoded gets what the decoder left in the
response, with `errors` one higher (so `errors == 1` when the decoder left it untouched).
When every index lookup succeeds the response has status 200 and carries these entries.
The peers change nothing else: status, local counts, calls of `DelMetric` and cache are
those of any other cluster and decoder over the same index and cache. -/
theorem ccacheDelete_peer_results {C : Type} (env : Env C) (cache : C) (req : CCacheDelete)
    (hp : req.Propagate = true)
    (hs : (env.sched (spawnedPeers env)).Perm (spawnedPeers env))
    (hn : ((spawnedPeers env).map (fun p => p.GetName)).Nodup) :
    (∀ peer ∈ env.MemberList, peer.IsLocal = false →
      ∃ r, mapGet (ccacheDeletePropagate env req).2.1 peer.GetName = some r ∧
        (peer.Post { req with Propagate := false } = none →
          r.Errors = 1 ∧ r.DeletedSeries = 0 ∧ r.DeletedArchives = 0 ∧ r.Peers = []) ∧
        (∀ buf, peer.Post { req with Propagate := false } = some buf →
          (env.Unmarshal buf).2 = false → r = (env.Unmarshal buf).1) ∧
        (∀ buf, peer.Post { req with Propagate := false } = some buf →
          (env.Unmarshal buf).2 = true →
          r.Errors = wrapInt ((env.Unmarshal buf).1.Errors + 1) ∧
          r.DeletedSeries = (env.Unmarshal buf).1.DeletedSeries ∧
          r.DeletedArchives = (env.Unmarshal buf).1.DeletedArchives ∧
          r.Peers = (env.Unmarshal buf).1.Peers)) ∧
    (findError env.Find req.OrgId req.Patterns = none →
      (ccacheDelete env cache req).resp.code = 200 ∧
      (ccacheDelete env cache req).resp.peers = (ccacheDeletePropagate env req).2.1) ∧
    (∀ env2 : Env C, env2.Find = env.Find → env2.DelMetric = env.DelMetric →
      (ccacheDelete env2 cache req).dels = (ccacheDelete env cache req).dels ∧
      (ccacheDelete env2 cache req).cache = (ccacheDelete env cache req).cache ∧
      (ccacheDelete env2 cache req).resp.code = (ccacheDelete env cache req).resp.code ∧
      (ccacheDelete env2 cache req).resp.counts = (ccacheDelete env cache req).resp.counts) := by
  refine ⟨?_, ?_, ?_⟩
  · intro peer hmem hloc
    have hsp : peer ∈ env.sched (spawnedPeers env) := by
      rw [hs.mem_iff]
      unfold spawnedPeers
      rw [List.mem_filter]
      exact ⟨hmem, by simp [hloc]⟩
    have hnd : ((env.sched (spawnedPeers env)).map (fun p => p.GetName)).Nodup :=
      ((hs.map _).nodup_iff).2 hn
    have hget := mapGet_fold
      (fun p => (ccacheDeleteRemote env { req with Propagate := false } p).1)
      (env.sched (spawnedPeers env)) hnd [] peer hsp
    rw [ccacheDeletePropagate_eq]
    obtain ⟨c1, c2, c3⟩ := ccacheDeleteRemote_cases env { req with Propagate := false } peer
    exact ⟨_, hget, c1, c2, c3⟩
  · intro hfe
    obtain ⟨res, e, _, _, _, e5⟩ := (ccacheDelete_local env cache req).2.2.2 hfe
    rw [e]
    simp only [hp, if_true] at e5
    exact ⟨rfl, e5⟩
  · intro env2 hF hD
    exact ccacheDelete_local_independent env env2 cache req req hF hD rfl rfl

/-- C9 (witness): the cluster of the examples: `peer1`, `peer2`, `peer3`, the call of
`peer2` failing. The response has status 200, `peer1` and `peer3` have zero errors and
`peer2` has `errors == 1`. -/
theorem ccacheDelete_peer_results_witness :
    (ccacheDelete demoEnv ["a.b", "a.c", "z"] demoReq).resp.code = 200 ∧
    (mapGet (ccacheDelete demoEnv ["a.b", "a.c", "z"] demoReq).resp.peers "peer1").map
      (fun r => r.Errors) = some 0 ∧
    (mapGet (ccacheDelete demoEnv ["a.b", "a.c", "z"] demoReq).resp.peers "peer2").map
      (fun r => r.Errors) = some 1 ∧
    (mapGet (ccacheDelete demoEnv ["a.b", "a.c", "z"] demoReq).resp.peers "peer3").map
      (fun r => r.Errors) = some 0 ∧
    (findError demoEnv.Find demoReq.OrgId demoReq.Patterns = none →
      (ccacheDelete demoEnv ["a.b", "a.c", "z"] demoReq).resp.code = 200 ∧
      (ccacheDelete demoEnv ["a.b", "a.c", "z"] demoReq).resp.peers =
        (ccacheDeletePropagate demoEnv demoReq).2.1) :=
  ⟨by decide, by decide, by decide, by decide,
    (ccacheDelete_peer_results demoEnv ["a.b", "a.c", "z"] demoReq (by decide)
      (List.reverse_perm (spawnedPeers demoEnv)) (by decide)).2.1⟩

/-! ## C10: the local deletion -/

/-- C10: for a delete request whose index lookups all succeed (`nodesOf` gives the nodes
found per pattern), `ccacheDelete` calls `DelMetric` once for every series definition of
every node of every pattern, in the order of the patterns, and answers with status 200;
`deletedSeries` and `deletedArchives` are the sums, in `int` arithmetic, of the counts these
calls returned, so the exact sums whenever these fit in an `int`. The calls and the counts
are the same for any value of `propagate` and any peers. -/
theorem ccacheDelete_local_counts {C : Type} (env : Env C) (cache : C) (req : CCacheDelete)
    (nodesOf : String → List Node)
    (hfind : ∀ p ∈ req.Patterns, env.Find req.OrgId p = .ok (nodesOf p)) :
    (ccacheDelete env cache req).dels =
      req.Patterns.flatMap (fun p => (nodesOf p).flatMap (fun n => n.Defs)) ∧
    (∃ res, (ccacheDelete env cache req).resp = .json 200 res ∧
      res.DeletedSeries = wrapInt (sumSeries (delResults env.DelMetric cache
        (req.Patterns.flatMap (fun p => (nodesOf p).flatMap (fun n => n.Defs))))) ∧
      res.DeletedArchives = wrapInt (sumArchives (delResults env.DelMetric cache
        (req.Patterns.flatMap (fun p => (nodesOf p).flatMap (fun n => n.Defs))))) ∧
      (∀ s, s = sumSeries (delResults env.DelMetric cache
          (req.Patterns.flatMap (fun p => (nodesOf p).flatMap (fun n => n.Defs)))) →
        -9223372036854775808 ≤ s → s < 9223372036854775808 → res.DeletedSeries = s) ∧
      (∀ s, s = sumArchives (delResults env.DelMetric cache
          (req.Patterns.flatMap (fun p => (nodesOf p).flatMap (fun n => n.Defs)))) →
        -9223372036854775808 ≤ s → s < 9223372036854775808 → res.DeletedArchives = s)) ∧
    (∀ (env2 : Env C) (req2 : CCacheDelete), env2.Find = env.Find →
      env2.DelMetric = env.DelMetric → req2.Patterns = req.Patterns →
      req2.OrgId = req.OrgId →
      (ccacheDelete env2 cache req2).dels = (ccacheDelete env cache req).dels ∧
      (ccacheDelete env2 cache req2).cache = (ccacheDelete env cache req).cache ∧
      (ccacheDelete env2 cache req2).resp.code = (ccacheDelete env cache req).resp.code ∧
      (ccacheDelete env2 cache req2).resp.counts = (ccacheDelete env cache req).resp.counts) := by
  obtain ⟨hids, hfe⟩ := matchedIds_of_ok env.Find req.OrgId nodesOf req.Patterns hfind
  obtain ⟨a1, _, _, a4⟩ := ccacheDelete_local env cache req
  obtain ⟨res, e, _, s1, t1, _⟩ := a4 hfe
  rw [hids] at a1 s1 t1
  refine ⟨a1, ⟨res, e, s1, t1, ?_, ?_⟩, ?_⟩
  · intro s hs h1 h2
    rw [s1, ← hs]
    exact wrapInt_of_range s h1 h2
  · intro s hs h1 h2
    rw [t1, ← hs]
    exact wrapInt_of_range s h1 h2
  · intro env2 req2 hF hD hP hO
    exact ccacheDelete_local_independent env env2 cache req req2 hF hD hP hO

/-- C10 (witness): the pattern `"a.*"` matches two series, both cached: two calls of
`DelMetric`, two series and six archives deleted. -/
theorem ccacheDelete_local_counts_witness :
    (ccacheDelete demoEnv ["a.b", "a.c", "z"] demoReq).dels = ["a.b", "a.c"] ∧
    (ccacheDelete demoEnv ["a.b", "a.c", "z"] demoReq).resp.counts = some (2, 6) ∧
    (ccacheDelete demoEnv ["a.b", "a.c", "z"] demoReq).dels =
      demoReq.Patterns.flatMap (fun p => (demoNodesOf p).flatMap (fun n => n.Defs)) :=
  ⟨by decide, by decide,
    (ccacheDelete_local_counts demoEnv ["a.b", "a.c", "z"] demoReq demoNodesOf
      (by simp [demoReq, demoEnv, demoFind, demoNodesOf])).1⟩

/-! ## C11: the response after a failing index lookup -/

/-- When a `Find` fails, `ccacheDelete` answers with the error alone: status 400, no
deletion counts and no peer results, although the peers were called (if `propagate` is
set) and `DelMetric` was called for every id matched before the failing pattern. -/
theorem ccacheDelete_find_error {C : Type} (env : Env C) (cache : C) (req : CCacheDelete)
    (e : String) (h : findError env.Find req.OrgId req.Patterns = some e) :
    (ccacheDelete env cache req).resp = .error 400 e ∧
    (ccacheDelete env cache req).resp.counts = none ∧
    (ccacheDelete env cache req).resp.peers = [] ∧
    (ccacheDelete env cache req).dels = matchedIds env.Find req.OrgId req.Patterns ∧
    (ccacheDelete env cache req).posts =
      (if req.Propagate then
        (env.sched (spawnedPeers env)).map
          (fun peer => { peer := peer, req := { req with Propagate := false } })
      else []) := by
  obtain ⟨a1, _, a3, _⟩ := ccacheDelete_local env cache req
  have hr := a3 e h
  refine ⟨hr, ?_, ?_, a1, ccacheDelete_posts_eq env cache req⟩
  · rw [hr]; rfl
  · rw [hr]; rfl

/-- C11 (the code at the failing input): the cluster of the examples, the cache holding
`a.b`, `a.c` and `z`, and a propagated delete of the patterns `"a.*"` and `"["`. The three
peers are called (`peer2` fails and its outcome `errors == 1` is collected), the two
series matched by `"a.*"` are evicted, then `Find` fails for `"["` and the response is the
error 400 alone: it carries neither the counts of the evictions nor the peer results. -/
theorem ccacheDelete_error_omits_results :
    (ccacheDelete demoEnv ["a.b", "a.c", "z"] demoReqBad).posts.map
        (fun c => c.peer.GetName) = ["peer3", "peer2", "peer1"] ∧
    (mapGet (ccacheDeletePropagate demoEnv demoReqBad).2.1 "peer2").map
        (fun r => r.Errors) = some 1 ∧
    (ccacheDelete demoEnv ["a.b", "a.c", "z"] demoReqBad).dels = ["a.b", "a.c"] ∧
    (ccacheDelete demoEnv ["a.b", "a.c", "z"] demoReqBad).cache = ["z"] ∧
    sumSeries (delResults demoEnv.DelMetric ["a.b", "a.c", "z"] ["a.b", "a.c"]) = 2 ∧
    (ccacheDelete demoEnv ["a.b", "a.c", "z"] demoReqBad).resp =
      Response.error 400 "bad pattern" ∧
    (ccacheDelete demoEnv ["a.b", "a.c", "z"] demoReqBad).resp.counts = none ∧
    (ccacheDelete demoEnv ["a.b", "a.c", "z"] demoReqBad).resp.peers.length = 0 := by
  refine ⟨by decide, by decide, by decide, by decide, by decide, ?_, by decide, by decide⟩
  exact (ccacheDelete_find_error demoEnv ["a.b", "a.c", "z"] demoReqBad "bad pattern"
    (by decide)).1

/-! ## `Process`: what reaches the index and the store -/

section Input

variable {V : Type}

theorem toUint32_eq_zero_iff (t : Int) : toUint32 t = 0 ↔ (4294967296 : Int) ∣ t := by
  unfold toUint32
  constructor
  · intro h
    apply Int.dvd_of_emod_eq_zero
    omega
  · intro h
    rw [Int.emod_eq_zero_of_dvd h]
    rfl

theorem toUint32_of_range (t : Int) (h1 : 0 ≤ t) (h2 : t < 4294967296) :
    (toUint32 t : Int) = t := by
  unfold toUint32
  omega

/-- The calls `Process` makes for a non-nil point, by the three outcomes of its checks. -/
theorem Process_cases (env : InputEnv V) (m : MetricData V) (partition : Int) :
    (env.Validate m ≠ none →
      Process env (some m) partition = [.statInc .metricsReceived, .statInc .MetricInvalid]) ∧
    (env.Validate m = none → m.Time = 0 →
      Process env (some m) partition = [.statInc .metricsReceived, .statInc .MetricInvalid]) ∧
    (env.Validate m = none → m.Time ≠ 0 →
      Process env (some m) partition =
        [.statInc .metricsReceived,
         .AddOrUpdate m partition,
         .statAdd .pressureIdx env.idxNanos,
         .GetOrCreate m.Id m.Name (env.AddOrUpdate m partition).SchemaId
           (env.AddOrUpdate m partition).AggId,
         .Add (toUint32 m.Time) m.Value,
         .statValue .lag (wrapInt (env.nowNano - wrapInt (m.Time * 1000000000))),
         .statAdd .pressureTank env.tankNanos]) := by
  unfold Process
  refine ⟨?_, ?_, ?_⟩
  · intro h
    cases hv : env.Validate m with
    | none => exact absurd hv h
    | some e => simp only [hv]
  · intro h ht
    simp only [h, ht, if_true]
  · intro h ht
    simp only [h, ht, if_false]

/-- The timestamps that reach the raw series: the low 32 bits of `Time`, for a point that
passes `Validate` and whose `Time` is not zero. -/
theorem Process_storedTimestamps (env : InputEnv V) (m : MetricData V) (partition : Int) :
    storedTimestamps (Process env (some m) partition) =
      if env.Validate m = none ∧ m.Time ≠ 0 then [toUint32 m.Time] else [] := by
  obtain ⟨c1, c2, c3⟩ := Process_cases env m partition
  by_cases hv : env.Validate m = none
  · by_cases ht : m.Time = 0
    · rw [c2 hv ht]
      simp [storedTimestamps, hv, ht]
    · rw [c3 hv ht]
      simp [storedTimestamps, hv, ht]
  · rw [c1 hv]
    simp [storedTimestamps, hv]

/-- A point whose `Time` is a `uint32` other than zero never reaches the raw series with
timestamp zero. -/
theorem Process_timestamp_ne_zero (env : InputEnv V) (m : MetricData V) (partition : Int)
    (h1 : 0 < m.Time) (h2 : m.Time < 4294967296) :
    ∀ ts ∈ storedTimestamps (Process env (some m) partition), ts ≠ 0 := by
  intro ts hts
  rw [Process_storedTimestamps] at hts
  split_ifs at hts with hc
  · rw [List.mem_singleton.1 hts]
    intro h0
    have := toUint32_of_range m.Time (Int.le_of_lt h1) h2
    rw [h0] at this
    simp at this
    omega
  · simp at hts

end Input

/-! ## C12: timestamp zero and the store -/

/-- C12 (the code at the failing input): a point that `Validate` accepts and whose `Time`
is `4294967296`. `Time` is not zero, so the check `metric.Time == 0` lets the point pass;
`uint32(metric.Time)` is zero, and the raw series is given `Add(0, 7)`. -/
theorem process_stores_timestamp_zero :
    demoInput.Validate demoPointWrapped = none ∧
    demoPointWrapped.Time ≠ 0 ∧
    toUint32 demoPointWrapped.Time = 0 ∧
    storeCalls (Process demoInput (some demoPointWrapped) 3) =
      [.AddOrUpdate demoPointWrapped 3, .Add 0 7] ∧
    storedTimestamps (Process demoInput (some demoPointWrapped) 3) = [0] := by
  refine ⟨by decide, by decide, by decide, by decide, by decide⟩

/-! ## C13: the calls and the counters of `Process` -/

/-- C13: for every input of `Process`. For a non-nil point the calls of the index's
`AddOrUpdate` and of the raw series' `Add` are one `AddOrUpdate` followed by one `Add` if
the point passes `Validate` and has `Time != 0`, and none otherwise; the invalid counter
is incremented exactly once if the point fails `Validate` or has `Time == 0`, and not at
all otherwise. For a nil point `Process` makes no call at all, so it touches no counter. -/
theorem process_calls_and_counters {V : Type} (env : InputEnv V) (m : MetricData V)
    (partition : Int) :
    (storeCalls (Process env (some m) partition) =
        [.AddOrUpdate m partition, .Add (toUint32 m.Time) m.Value] ↔
      (env.Validate m = none ∧ m.Time ≠ 0)) ∧
    (storeCalls (Process env (some m) partition) = [] ↔
      ¬ (env.Validate m = none ∧ m.Time ≠ 0)) ∧
    (statIncs .MetricInvalid (Process env (some m) partition) = 1 ↔
      (env.Validate m ≠ none ∨ m.Time = 0)) ∧
    (statIncs .MetricInvalid (Process env (some m) partition) = 0 ↔
      ¬ (env.Validate m ≠ none ∨ m.Time = 0)) ∧
    Process env none partition = [] ∧
    statCalls (Process env none partition) = [] := by
  obtain ⟨c1, c2, c3⟩ := Process_cases env m partition
  by_cases hv : env.Validate m = none
  · by_cases ht : m.Time = 0
    · rw [c2 hv ht]
      simp [storeCalls, statIncs, statCalls, Process, hv, ht]
    · rw [c3 hv ht]
      simp [storeCalls, statIncs, statCalls, Process, hv, ht]
  · rw [c1 hv]
    simp [storeCalls, statIncs, statCalls, Process, hv]

/-- C13 (example): a valid point, an unnamed point that fails `Validate`, a point of
`Time` zero, and nil. -/
theorem process_calls_and_counters_witness :
    Process demoInput (some demoPoint) 3 =
      [.statInc .metricsReceived, .AddOrUpdate demoPoint 3, .statAdd .pressureIdx 100,
       .GetOrCreate "1.abc" "a.b" 1 2, .Add 1500000000 7, .statValue .lag 0,
       .statAdd .pressureTank 200] ∧
    Process demoInput (some { demoPoint with Name := "" }) 3 =
      [.statInc .metricsReceived, .statInc .MetricInvalid] ∧
    Process demoInput (some { demoPoint with Time := 0 }) 3 =
      [.statInc .metricsReceived, .statInc .MetricInvalid] ∧
    Process demoInput none 3 = [] ∧
    (storeCalls (Process demoInput (some demoPoint) 3) =
        [.AddOrUpdate demoPoint 3, .Add (toUint32 demoPoint.Time) demoPoint.Value] ↔
      (demoInput.Validate demoPoint = none ∧ demoPoint.Time ≠ 0)) :=
  ⟨by decide, by decide, by decide, by decide,
    (process_calls_and_counters demoInput demoPoint 3).1⟩

end Metrictank
